import Mathlib

/-!
Verification of the `calc` running-ledger engine (`src/main.rs`).

The Rust code is shallowly embedded: `rust_decimal::Decimal` becomes `ℚ`
(the engine relies only on exact decimal arithmetic for the properties
below), panics (`unimplemented!()`, division by zero) become `none`, and
the in-place mutation performed by `evaluate` becomes a function from the
line list to a new line list.
-/

namespace Calc

/-- A value: an exact decimal number or a closed interval, as in
`enum Value` of `src/main.rs`. Decimals are modelled as rationals. -/
inductive Value where
  | Number : ℚ → Value
  | Interval : ℚ → ℚ → Value
deriving DecidableEq, Repr

/-- An expression tree, as in `enum Operation` of `src/main.rs`. -/
inductive Operation where
  | Mul : Operation → Operation → Operation
  | Div : Operation → Operation → Operation
  | Value : Value → Operation
deriving DecidableEq, Repr

/-- One document line, as in `enum Line` of `src/main.rs`: an expression
statement with a comment, or a subtotal marker with an optional value and
a comment. -/
inductive Line where
  | Operation : Operation → String → Line
  | Subtotal : Option Value → String → Line
deriving DecidableEq, Repr

/-- `Value::sub` from `src/main.rs` (lines 41–48): total on all four
shape combinations. -/
def Value.sub : Value → Value → Value
  | .Number n, .Number m => .Number (n - m)
  | .Number n, .Interval a b => .Interval (n - b) (n - a)
  | .Interval a b, .Number n => .Interval (a - n) (b - n)
  | .Interval a b, .Interval c d => .Interval (a - d) (b - c)

/-- `Value::mul` from `src/main.rs` (lines 50–63); `none` models the
`unimplemented!()` panic in the interval × interval case with a negative
lower bound. -/
def Value.mul : Value → Value → Option Value
  | .Number n, .Number m => some (.Number (n * m))
  | .Number n, .Interval a b => some (.Interval (n * a) (n * b))
  | .Interval a b, .Number n => some (.Interval (a * n) (b * n))
  | .Interval a b, .Interval c d =>
      if 0 ≤ a ∧ 0 ≤ c then some (.Interval (a * c) (b * d)) else none

/-- `Value::div` from `src/main.rs` (lines 65–74); `none` models both the
`unimplemented!()` panic in the interval ÷ interval case and the
`rust_decimal` panic on division by zero (the source divides with the raw
`/` operator, which panics when the divisor is zero). -/
def Value.div : Value → Value → Option Value
  | .Number n, .Number m => if m = 0 then none else some (.Number (n / m))
  | .Number n, .Interval a b =>
      if a = 0 ∨ b = 0 then none else some (.Interval (n / a) (n / b))
  | .Interval a b, .Number n =>
      if n = 0 then none else some (.Interval (a / n) (b / n))
  | .Interval _ _, .Interval _ _ => none

/-- `evaluate_operation` from `src/main.rs` (lines 245–261): bottom-up
evaluation of an expression tree. -/
def evaluate_operation : Operation → Option Value
  | .Mul l r => do Value.mul (← evaluate_operation l) (← evaluate_operation r)
  | .Div l r => do Value.div (← evaluate_operation l) (← evaluate_operation r)
  | .Value v => some v

/-- The `for l in &mut lines[1..]` loop of `evaluate` in `src/main.rs`
(lines 276–281), carrying the running accumulator. -/
def evaluateLoop (accu : Value) : List Line → Option (List Line)
  | [] => some []
  | .Operation op c :: rest => do
      let v ← evaluate_operation op
      let out ← evaluateLoop (accu.sub v) rest
      pure (.Operation op c :: out)
  | .Subtotal _ c :: rest => do
      let out ← evaluateLoop accu rest
      pure (.Subtotal (some accu) c :: out)

/-- `evaluate` from `src/main.rs` (lines 263–282). The source mutates the
slice in place; here the (possibly) updated line list is returned, with
`none` for a run that panics in unsupported arithmetic. -/
def evaluate : List Line → Option (List Line)
  | [] => some []
  | .Subtotal v c :: rest => some (.Subtotal v c :: rest)
  | .Operation op c :: rest => do
      let v ← evaluate_operation op
      let out ← evaluateLoop v rest
      pure (.Operation op c :: out)

/-- Specification-side accumulator: starting from the first line's value
`v0`, fold over a prefix of the remaining lines, subtracting each
operation line's evaluated tree and ignoring subtotal lines. -/
def runAcc (v0 : Value) (pre : List Line) : Option Value :=
  pre.foldl
    (fun acc l =>
      match l with
      | .Operation op _ => do Value.sub (← acc) (← evaluate_operation op)
      | .Subtotal _ _ => acc)
    (some v0)

theorem runAcc_nil (v0 : Value) : runAcc v0 [] = some v0 := rfl

theorem runAcc_cons_op (v0 v : Value) (op : Operation) (c : String)
    (rest : List Line) (h : evaluate_operation op = some v) :
    runAcc v0 (.Operation op c :: rest) = runAcc (v0.sub v) rest := by
  simp [runAcc, List.foldl_cons, h]

theorem runAcc_cons_sub (v0 : Value) (x : Option Value) (c : String)
    (rest : List Line) :
    runAcc v0 (.Subtotal x c :: rest) = runAcc v0 rest := by
  simp [runAcc, List.foldl_cons]

/-- How one input line appears in the evaluated output, given the
accumulator `acc` current just before it: operation lines are unchanged,
a subtotal's value is overwritten with `acc`. -/
def lineOut (acc : Option Value) : Line → Line
  | .Operation o cc => .Operation o cc
  | .Subtotal _ cc => .Subtotal acc cc

/-- Positional characterization of the evaluation loop: line `i` of the
output is the input line, except that a subtotal's value is overwritten
with the accumulator obtained by folding over the `i`-line prefix. -/
theorem evaluateLoop_spec (rest : List Line) :
    ∀ (v0 : Value) (out : List Line), evaluateLoop v0 rest = some out →
    ∀ i : ℕ, out[i]? = (rest[i]?).map (lineOut (runAcc v0 (rest.take i))) := by
  induction rest with
  | nil =>
    intro v0 out h i
    simp only [evaluateLoop, Option.some.injEq] at h
    subst h
    simp
  | cons l ls ih =>
    intro v0 out h i
    cases l with
    | Operation o cc =>
      simp only [evaluateLoop, Option.pure_def, Option.bind_eq_bind,
        Option.bind_eq_some, Option.some.injEq] at h
      obtain ⟨v, hv, out', hout', rfl⟩ := h
      cases i with
      | zero => simp [lineOut]
      | succ i =>
        simp only [List.getElem?_cons_succ, List.take_succ_cons,
          runAcc_cons_op v0 v o cc _ hv]
        exact ih (v0.sub v) out' hout' i
    | Subtotal x cc =>
      simp only [evaluateLoop, Option.pure_def, Option.bind_eq_bind,
        Option.bind_eq_some, Option.some.injEq] at h
      obtain ⟨out', hout', rfl⟩ := h
      cases i with
      | zero => simp [lineOut, runAcc_nil]
      | succ i =>
        simp only [List.getElem?_cons_succ, List.take_succ_cons, runAcc_cons_sub]
        exact ih v0 out' hout' i

/-- Claim C1: for a document whose first line is an operation line, the
evaluator initializes the accumulator to the first line's evaluated tree,
then each later operation line sets the accumulator to
`sub(accumulator, evaluated)` while staying itself unchanged, and each
subtotal line has its value overwritten with the current accumulator
(the fold of `sub` over the operation lines strictly before it), the
accumulator itself being unchanged by subtotal lines. -/
theorem evaluate_first_operation_spec (op : Operation) (c : String)
    (rest out : List Line)
    (h : evaluate (.Operation op c :: rest) = some out) :
    ∃ v0, evaluate_operation op = some v0 ∧
      out[0]? = some (.Operation op c) ∧
      ∀ i : ℕ, out[i + 1]? =
        (rest[i]?).map (lineOut (runAcc v0 (rest.take i))) := by
  simp only [evaluate, Option.pure_def, Option.bind_eq_bind,
    Option.bind_eq_some, Option.some.injEq] at h
  obtain ⟨v0, hv0, out', hout', rfl⟩ := h
  exact ⟨v0, hv0, by simp, fun i => by
    simpa using evaluateLoop_spec rest v0 out' hout' i⟩

/-- Example document tail used to witness claim C1. -/
def c1Rest : List Line :=
  [.Operation (.Value (.Number 30)) "rent", .Subtotal none "running balance"]

/-- Witness for claim C1: the characterization applied to the concrete
document `100 * 2 ; 30 ; subtotal`. -/
theorem evaluate_first_operation_spec_witness :
    ∃ v0, evaluate_operation
        (.Mul (.Value (.Number 100)) (.Value (.Number 2))) = some v0 ∧
      [Line.Operation (.Mul (.Value (.Number 100)) (.Value (.Number 2)))
          "initial deposit",
        Line.Operation (.Value (.Number 30)) "rent",
        Line.Subtotal (some (.Number 170)) "running balance"][0]? =
        some (.Operation (.Mul (.Value (.Number 100)) (.Value (.Number 2)))
          "initial deposit") ∧
      ∀ i : ℕ,
        [Line.Operation (.Mul (.Value (.Number 100)) (.Value (.Number 2)))
            "initial deposit",
          Line.Operation (.Value (.Number 30)) "rent",
          Line.Subtotal (some (.Number 170)) "running balance"][i + 1]? =
        (c1Rest[i]?).map (lineOut (runAcc v0 (c1Rest.take i))) :=
  evaluate_first_operation_spec
    (.Mul (.Value (.Number 100)) (.Value (.Number 2))) "initial deposit"
    c1Rest _
    (by norm_num [c1Rest, evaluate, evaluateLoop, evaluate_operation,
      Value.mul, Value.sub])

/-- Claim C2: interval × interval multiplication returns the interval of
the products of the bounds when both lower bounds are nonnegative, and
fails (models a panic) when either lower bound is negative. -/
theorem mul_interval_interval (a b c d : ℚ) :
    (0 ≤ a → 0 ≤ c →
      Value.mul (.Interval a b) (.Interval c d) =
        some (.Interval (a * c) (b * d))) ∧
    (a < 0 ∨ c < 0 → Value.mul (.Interval a b) (.Interval c d) = none) := by
  constructor
  · intro ha hc
    simp [Value.mul, ha, hc]
  · intro h
    have : ¬ (0 ≤ a ∧ 0 ≤ c) := by
      rcases h with h | h
      · exact fun hc => absurd hc.1 (not_le.mpr h)
      · exact fun hc => absurd hc.2 (not_le.mpr h)
    simp [Value.mul, this]

/-- Witness for claim C2 at the concrete intervals `[1,2] × [3,4]` and
`[-1,2] × [3,4]`. -/
theorem mul_interval_interval_witness :
    Value.mul (.Interval 1 2) (.Interval 3 4) = some (.Interval 3 8) ∧
    Value.mul (.Interval (-1) 2) (.Interval 3 4) = none := by
  constructor
  · have := (mul_interval_interval 1 2 3 4).1 (by norm_num) (by norm_num)
    rw [this]
    norm_num
  · exact (mul_interval_interval (-1) 2 3 4).2 (Or.inl (by norm_num))

/-- Claim C3: interval ÷ interval always fails (models the unconditional
panic); it never returns a value, for any bounds. -/
theorem div_interval_interval (a b c d : ℚ) :
    Value.div (.Interval a b) (.Interval c d) = none := rfl

/-- Claim C4: the four cases of subtraction, with the number − interval
case reversing the bound order, and that case producing an interval with
`lo ≤ hi` whenever the input interval had `a ≤ b`. -/
theorem sub_cases :
    (∀ n m : ℚ, Value.sub (.Number n) (.Number m) = .Number (n - m)) ∧
    (∀ n a b : ℚ,
      Value.sub (.Number n) (.Interval a b) = .Interval (n - b) (n - a)) ∧
    (∀ a b n : ℚ,
      Value.sub (.Interval a b) (.Number n) = .Interval (a - n) (b - n)) ∧
    (∀ a b c d : ℚ,
      Value.sub (.Interval a b) (.Interval c d) = .Interval (a - d) (b - c)) ∧
    (∀ n a b lo hi : ℚ, a ≤ b →
      Value.sub (.Number n) (.Interval a b) = .Interval lo hi → lo ≤ hi) := by
  refine ⟨fun n m => rfl, fun n a b => rfl, fun a b n => rfl,
    fun a b c d => rfl, fun n a b lo hi hab h => ?_⟩
  simp only [Value.sub, Value.Interval.injEq] at h
  obtain ⟨rfl, rfl⟩ := h
  linarith

/-- Witness for claim C4: the ordering conclusion at `5 − [1, 3]`. -/
theorem sub_cases_witness :
    Value.sub (.Number 5) (.Interval 1 3) = .Interval 2 4 ∧ (2 : ℚ) ≤ 4 :=
  ⟨by norm_num [Value.sub],
    sub_cases.2.2.2.2 5 1 3 2 4 (by norm_num) (by norm_num [Value.sub])⟩

/-- Claim C5: evaluation of an empty document, or of a document whose
first line is a subtotal, changes nothing: the output is the input line
list, every subtotal value staying exactly as parsed. -/
theorem evaluate_noop :
    evaluate [] = some [] ∧
    ∀ (v : Option Value) (c : String) (rest : List Line),
      evaluate (.Subtotal v c :: rest) = some (.Subtotal v c :: rest) :=
  ⟨rfl, fun _ _ _ => rfl⟩

/-- Claim C10: division by a zero number always fails, for either shape of
numerator, and dividing a number by an interval fails as soon as either
bound is zero (the source divides with the raw `/`, which panics on a
zero divisor). -/
theorem div_by_zero_fails :
    (∀ v : Value, Value.div v (.Number 0) = none) ∧
    (∀ n a b : ℚ, (a = 0 ∨ b = 0) →
      Value.div (.Number n) (.Interval a b) = none) := by
  constructor
  · intro v
    cases v <;> simp [Value.div]
  · intro n a b h
    simp [Value.div, h]

/-- Witness for claim C10 at `7 ÷ [0, 3]`. -/
theorem div_by_zero_fails_witness :
    Value.div (.Number 7) (.Interval 0 3) = none :=
  div_by_zero_fails.2 7 0 3 (Or.inl rfl)

/-! ## Rendering (`pretty_print_value`, `pretty_print_operation`, `pretty_print`) -/

/-- Round a rational to the nearest integer, ties to even: the default
`MidpointNearestEven` strategy of `rust_decimal`'s `round_dp`. -/
def roundHalfEven (q : ℚ) : ℤ :=
  if q - ⌊q⌋ < 1 / 2 then ⌊q⌋
  else if 1 / 2 < q - ⌊q⌋ then ⌊q⌋ + 1
  else if 2 ∣ ⌊q⌋ then ⌊q⌋ else ⌊q⌋ + 1

/-- `round_dp(2)` of the source, expressed as the signed number of
hundredths of the rounded value. -/
def hundredths (q : ℚ) : ℤ := roundHalfEven (q * 100)

/-- Decimal digits of a natural number, least significant first; the fuel
argument only bounds the recursion depth. -/
def natDigitsRev : ℕ → ℕ → List ℕ
  | 0, _ => []
  | fuel + 1, n => if n < 10 then [n] else n % 10 :: natDigitsRev fuel (n / 10)

/-- Decimal digit characters of a natural number, most significant
first. -/
def natChars (n : ℕ) : List Char := ((natDigitsRev (n + 1) n).reverse).map Nat.digitChar

/-- Character list of `Display` for a value of `k` hundredths after
`rust_decimal`'s `normalize()`: the scale is reduced while the mantissa
ends in zero, so trailing zero decimals (and an empty decimal part)
disappear. -/
def normChars (k : ℤ) : List Char :=
  let sign : List Char := if k < 0 then ['-'] else []
  let a := k.natAbs
  let ip := a / 100
  let fr := a % 100
  if fr = 0 then sign ++ natChars ip
  else if fr % 10 = 0 then sign ++ natChars ip ++ ['.', Nat.digitChar (fr / 10)]
  else sign ++ natChars ip ++ ['.', Nat.digitChar (fr / 10), Nat.digitChar (fr % 10)]

/-- Rendering of one number: `round_dp(2).normalize()` then `Display`,
from `pretty_print_value` in `src/main.rs` (lines 170–180). -/
def renderNum (q : ℚ) : String := ⟨normChars (hundredths q)⟩

/-- `pretty_print_value` from `src/main.rs` (lines 170–180). -/
def pretty_print_value : Value → String
  | .Number n => renderNum n
  | .Interval a b => "[" ++ renderNum a ++ ", " ++ renderNum b ++ "]"

/-- Specification-side rendering of `k` hundredths with always exactly
two decimal places (the "rounded to 2 decimal places" form before
trimming). -/
def fixedChars (k : ℤ) : List Char :=
  (if k < 0 then ['-'] else []) ++ natChars (k.natAbs / 100) ++
    ['.', Nat.digitChar (k.natAbs % 100 / 10), Nat.digitChar (k.natAbs % 100 % 10)]

/-- Drop one leading decimal point, if present. -/
def trimDot : List Char → List Char
  | c :: r => if c = '.' then r else c :: r
  | [] => []

/-- Specification-side trimming: remove trailing zeros, then a trailing
decimal point. -/
def trimChars (s : List Char) : List Char :=
  (trimDot (s.reverse.dropWhile (fun c => c = '0'))).reverse

theorem digitChar_eq_zero_iff (x : ℕ) (hx : x ≤ 9) :
    Nat.digitChar x = '0' ↔ x = 0 := by
  interval_cases x <;> simp [Nat.digitChar]

theorem digitChar_ne_dot (x : ℕ) (hx : x ≤ 9) : Nat.digitChar x ≠ '.' := by
  interval_cases x <;> simp [Nat.digitChar]

theorem digitChar_zero : Nat.digitChar 0 = '0' := rfl

/-- The code's scale-reduction `normalize()` agrees with textual trimming
of the two-decimal rendering. -/
theorem normChars_eq_trim (k : ℤ) : normChars k = trimChars (fixedChars k) := by
  have hfr : k.natAbs % 100 < 100 := Nat.mod_lt _ (by norm_num)
  have hd1 : k.natAbs % 100 / 10 ≤ 9 := by omega
  have hd2 : k.natAbs % 100 % 10 ≤ 9 := by omega
  by_cases h0 : k.natAbs % 100 = 0
  · simp only [normChars, fixedChars, trimChars, h0, if_pos rfl]
    simp [trimDot, List.reverse_append, List.dropWhile_cons, digitChar_zero,
      Nat.zero_div, Nat.zero_mod]
  · by_cases h10 : k.natAbs % 100 % 10 = 0
    · have hq : k.natAbs % 100 / 10 ≠ 0 := by omega
      have hne : Nat.digitChar (k.natAbs % 100 / 10) ≠ '0' :=
        fun hc => hq ((digitChar_eq_zero_iff _ hd1).mp hc)
      have hdot : Nat.digitChar (k.natAbs % 100 / 10) ≠ '.' :=
        digitChar_ne_dot _ hd1
      simp only [normChars, fixedChars, trimChars, h10, if_neg h0]
      simp [trimDot, List.reverse_append, List.dropWhile_cons, digitChar_zero,
        hne, hdot]
    · have hne : Nat.digitChar (k.natAbs % 100 % 10) ≠ '0' :=
        fun hc => h10 ((digitChar_eq_zero_iff _ hd2).mp hc)
      have hdot : Nat.digitChar (k.natAbs % 100 % 10) ≠ '.' :=
        digitChar_ne_dot _ hd2
      simp only [normChars, fixedChars, trimChars, if_neg h0, if_neg h10]
      simp [trimDot, List.reverse_append, List.dropWhile_cons, hne, hdot]

theorem roundHalfEven_intCast (z : ℤ) : roundHalfEven (z : ℚ) = z := by
  simp [roundHalfEven, Int.floor_intCast]

theorem hundredths_natCast (n : ℕ) : hundredths (n : ℚ) = (n : ℤ) * 100 := by
  have : ((n : ℚ)) * 100 = (((n : ℤ) * 100 : ℤ) : ℚ) := by push_cast; ring
  rw [hundredths, this, roundHalfEven_intCast]

/-- Claim C7: rendering a number rounds it to 2 decimal places and then
trims trailing zeros and a trailing decimal point (the code's
scale-normalization is exactly that textual trimming); an interval
renders as `[lo, hi]` with each bound rendered the same way; the value
10.500 prints as `10.5` and the value 10.00 prints as `10`. -/
theorem pretty_print_value_spec :
    (∀ a b : ℚ, pretty_print_value (.Interval a b) =
      "[" ++ renderNum a ++ ", " ++ renderNum b ++ "]") ∧
    (∀ q : ℚ, (renderNum q).data = trimChars (fixedChars (hundredths q))) ∧
    pretty_print_value (.Number (10500 / 1000)) = "10.5" ∧
    pretty_print_value (.Number (1000 / 100)) = "10" := by
  refine ⟨fun a b => rfl, fun q => normChars_eq_trim (hundredths q), ?_, ?_⟩
  · have h1 : hundredths (10500 / 1000 : ℚ) = 1050 := by
      have : (10500 / 1000 : ℚ) = ((1050 : ℕ) : ℚ) / 100 := by norm_num
      rw [hundredths, this, div_mul_cancel₀ _ (by norm_num : (100 : ℚ) ≠ 0)]
      exact roundHalfEven_intCast 1050
    show renderNum (10500 / 1000 : ℚ) = "10.5"
    rw [renderNum, h1]
    decide
  · have h1 : hundredths (1000 / 100 : ℚ) = 1000 := by
      have : (1000 / 100 : ℚ) = ((1000 : ℕ) : ℚ) / 100 := by norm_num
      rw [hundredths, this, div_mul_cancel₀ _ (by norm_num : (100 : ℚ) ≠ 0)]
      exact roundHalfEven_intCast 1000
    show renderNum (1000 / 100 : ℚ) = "10"
    rw [renderNum, h1]
    decide

/-- `pretty_print_operation` from `src/main.rs` (lines 182–196): infix
rendering with `" * "` / `" / "` separators and no parentheses. -/
def pretty_print_operation : Operation → String
  | .Mul l r => pretty_print_operation l ++ " * " ++ pretty_print_operation r
  | .Div l r => pretty_print_operation l ++ " / " ++ pretty_print_operation r
  | .Value v => pretty_print_value v

/-- The left-hand-side text of one line, as computed by the `lhs` vector
in `pretty_print` (`src/main.rs` lines 199–213): the rendered expression
for operation lines, the rendered value (if any) for subtotal lines. -/
def lhs : Line → Option String
  | .Operation op _ => some (pretty_print_operation op)
  | .Subtotal v _ => v.map pretty_print_value

/-- `lhs_col` of `pretty_print`: the maximum left-hand-side length over
all lines, 0 for a missing side and for an empty document. -/
def lhs_col (lines : List Line) : ℕ :=
  (lines.map (fun l => ((lhs l).map String.length).getD 0)).foldr max 0

/-- Rust's `{:>width$}` formatting: left-pad with spaces up to `width`,
never truncating. -/
def rightJustify (w : ℕ) (s : String) : String :=
  ⟨List.replicate (w - s.length) ' ' ++ s.data⟩

/-- `pretty_print` from `src/main.rs` (lines 198–243): each operation
line is its justified left-hand side, a space and the comment; each
subtotal line is a dash row of the column width, then its justified
value (or nothing), a space and the comment, then a blank line. -/
def pretty_print (lines : List Line) : String :=
  let w := lhs_col lines
  String.join (lines.map (fun line =>
    match line with
    | .Operation op comment =>
        rightJustify w (pretty_print_operation op) ++ " " ++ comment ++ "\n"
    | .Subtotal v comment =>
        ⟨List.replicate w '-'⟩ ++ "\n" ++
          rightJustify w ((v.map pretty_print_value).getD "") ++ " " ++
          comment ++ "\n" ++ "\n"))

/-- The seven-line example document of the specification, as parsed:
`100 * 2`, `30`, a subtotal, `20`, a subtotal. -/
def c9Doc : List Line :=
  [.Operation (.Mul (.Value (.Number 100)) (.Value (.Number 2))) "initial deposit",
   .Operation (.Value (.Number 30)) "rent",
   .Subtotal none "running balance",
   .Operation (.Value (.Number 20)) "groceries",
   .Subtotal none "running balance"]

/-- The example document after evaluation: the subtotals are snapshots
170 and 150. -/
def c9DocEval : List Line :=
  [.Operation (.Mul (.Value (.Number 100)) (.Value (.Number 2))) "initial deposit",
   .Operation (.Value (.Number 30)) "rent",
   .Subtotal (some (.Number 170)) "running balance",
   .Operation (.Value (.Number 20)) "groceries",
   .Subtotal (some (.Number 150)) "running balance"]

theorem c9_evaluate : evaluate c9Doc = some c9DocEval := by
  norm_num [c9Doc, c9DocEval, evaluate, evaluateLoop, evaluate_operation,
    Value.mul, Value.sub]

theorem renderNum_nat (n : ℕ) : renderNum (n : ℚ) = ⟨normChars ((n : ℤ) * 100)⟩ := by
  rw [renderNum, hundredths_natCast]

/-- Counterexample to claim C9 as stated: in the processed output the
deposit line's rendered left-hand side is its expression `100 * 2`, not
the evaluated `200.00`, and the subtotal sides are the normalized `170`
and `150`, not `170.00` and `150.00`. -/
theorem c9_lhs_not_as_claimed :
    (evaluate c9Doc).map (fun out => out.map lhs) ≠
      some [some "200.00", some "30.00", some "170.00", some "20.00",
        some "150.00"] := by
  rw [c9_evaluate]
  have h100 : renderNum (100 : ℚ) = "100" := by
    rw [show ((100 : ℚ)) = ((100 : ℕ) : ℚ) by norm_num, renderNum_nat]; decide
  have h2 : renderNum (2 : ℚ) = "2" := by
    rw [show ((2 : ℚ)) = ((2 : ℕ) : ℚ) by norm_num, renderNum_nat]; decide
  intro h
  have := List.head_eq_of_cons_eq ((Option.some.injEq _ _).mp h)
  simp only [c9DocEval, lhs, pretty_print_operation, pretty_print_value,
    h100, h2] at this
  exact absurd this (by decide)

/-- Claim C9, amended: for the seven-line example document the evaluator
produces the subtotal snapshots 170 (= 200 − 30) and 150 (= 170 − 20),
and the processed output's rendered left-hand sides are, in order,
`100 * 2` (the deposit expression, whose evaluated value 200 is not
printed), `30`, `170`, `20` and `150`, each value normalized without a
trailing `.00`; the full output right-justifies these to width 7 with a
dash separator row before and a blank line after each subtotal. -/
theorem c9_output :
    evaluate c9Doc = some c9DocEval ∧
    c9DocEval.map lhs =
      [some "100 * 2", some "30", some "170", some "20", some "150"] ∧
    pretty_print c9DocEval =
      "100 * 2 initial deposit\n     30 rent\n-------\n    170 running balance\n\n     20 groceries\n-------\n    150 running balance\n\n" := by
  have h100 : renderNum (100 : ℚ) = "100" := by
    rw [show ((100 : ℚ)) = ((100 : ℕ) : ℚ) by norm_num, renderNum_nat]; decide
  have h2 : renderNum (2 : ℚ) = "2" := by
    rw [show ((2 : ℚ)) = ((2 : ℕ) : ℚ) by norm_num, renderNum_nat]; decide
  have h30 : renderNum (30 : ℚ) = "30" := by
    rw [show ((30 : ℚ)) = ((30 : ℕ) : ℚ) by norm_num, renderNum_nat]; decide
  have h20 : renderNum (20 : ℚ) = "20" := by
    rw [show ((20 : ℚ)) = ((20 : ℕ) : ℚ) by norm_num, renderNum_nat]; decide
  have h170 : renderNum (170 : ℚ) = "170" := by
    rw [show ((170 : ℚ)) = ((170 : ℕ) : ℚ) by norm_num, renderNum_nat]; decide
  have h150 : renderNum (150 : ℚ) = "150" := by
    rw [show ((150 : ℚ)) = ((150 : ℕ) : ℚ) by norm_num, renderNum_nat]; decide
  refine ⟨c9_evaluate, ?_, ?_⟩
  · simp only [c9DocEval, List.map_cons, List.map_nil, lhs, Option.map_some']
    simp only [pretty_print_operation, pretty_print_value, h100, h2, h30, h20,
      h170, h150]
    decide
  · simp only [c9DocEval, pretty_print, lhs_col, lhs, List.map_cons,
      List.map_nil, Option.map_some']
    simp only [pretty_print_operation, pretty_print_value, h100, h2, h30, h20,
      h170, h150, Option.getD_some, rightJustify, String.join]
    decide

/-! ## The parser

A character-level embedding of the chumsky grammar of `src/main.rs`.
Each combinator becomes a function from the remaining characters to an
optional result and remainder; `chumsky`'s backtracking choice (`choice`,
`or_not`, the pratt operator loop, `repeated`) rewinds a failed branch,
which here is just returning the untouched input. `newline()` is
modelled for `\n`, `\r\n` and `\r`. -/

/-- Inline whitespace, as accepted by chumsky's `inline_whitespace()`. -/
def isInlineWs (c : Char) : Bool := c = ' ' || c = '\t'

/-- Whitespace, as accepted by chumsky's `whitespace()`. -/
def isWs (c : Char) : Bool := c = ' ' || c = '\t' || c = '\n' || c = '\r'

/-- Consume `inline_whitespace()` (zero or more). -/
def dropInlineWs (s : List Char) : List Char := s.dropWhile isInlineWs

/-- Consume `whitespace()` (zero or more). -/
def dropWs (s : List Char) : List Char := s.dropWhile isWs

/-- Numeric value of a most-significant-first list of digit characters. -/
def digitsToNat (ds : List Char) : ℕ :=
  ds.foldl (fun a d => 10 * a + (d.toNat - 48)) 0

/-- chumsky `text::int(10)`: either the single digit `0`, or one nonzero
digit followed by any digits; yields the numeric value of the digits
consumed. -/
def parseInt (s : List Char) : Option (ℕ × List Char) :=
  match s with
  | [] => none
  | c :: r =>
    if c = '0' then some (0, r)
    else if c.isDigit then
      some (digitsToNat (c :: r.takeWhile Char.isDigit), r.dropWhile Char.isDigit)
    else none

/-- chumsky `text::digits(10)`: one or more digits; yields their value
and their count. -/
def parseDigits (s : List Char) : Option ((ℕ × ℕ) × List Char) :=
  match s with
  | [] => none
  | c :: r =>
    if c.isDigit then
      some ((digitsToNat (c :: r.takeWhile Char.isDigit),
        (c :: r.takeWhile Char.isDigit).length), r.dropWhile Char.isDigit)
    else none

/-- The unsigned part of the `number` grammar: an integer, then
optionally `.` followed by one-or-more digits (when the digits are
missing the dot is not consumed, chumsky's `or_not` rewinding it). -/
def parseUnsigned (s : List Char) : Option (ℚ × List Char) :=
  match parseInt s with
  | none => none
  | some (ip, s2) =>
    match s2 with
    | c :: r =>
      if c = '.' then
        match parseDigits r with
        | some (fd, s3) =>
          some ((ip : ℚ) + (fd.1 : ℚ) / (10 : ℚ) ^ fd.2, s3)
        | none => some ((ip : ℚ), c :: r)
      else some ((ip : ℚ), c :: r)
    | [] => some ((ip : ℚ), [])

/-- The `number` grammar of `parse_value` (`src/main.rs` lines 78–84):
optional `-`, then the unsigned part; the consumed slice is read as an
exact decimal. -/
def parseNumber (s : List Char) : Option (ℚ × List Char) :=
  match s with
  | c :: r =>
    if c = '-' then
      match parseUnsigned r with
      | some (q, rem) => some (-q, rem)
      | none => none
    else parseUnsigned (c :: r)
  | [] => none

/-- `parse_value` (`src/main.rs` lines 77–97): a number, or else an
interval `[` inline-ws number ws `,` ws number inline-ws `]`. -/
def parseValue (s : List Char) : Option (Value × List Char) :=
  match parseNumber s with
  | some (q, r) => some (.Number q, r)
  | none =>
    match s with
    | c :: s1 =>
      if c = '[' then
        match parseNumber (dropInlineWs s1) with
        | none => none
        | some (a, s3) =>
          match dropWs s3 with
          | c2 :: s5 =>
            if c2 = ',' then
              match parseNumber (dropWs s5) with
              | none => none
              | some (b, s7) =>
                match dropInlineWs s7 with
                | c3 :: s9 =>
                  if c3 = ']' then some (.Interval a b, s9) else none
                | [] => none
            else none
          | [] => none
      else none
    | [] => none

/-- The atom of `parse_operation` (`src/main.rs` lines 101–103):
`inline_whitespace().ignore_then(parse_value()).map(Operation::Value)`. -/
def parseAtom (s : List Char) : Option (Operation × List Char) :=
  match parseValue (dropInlineWs s) with
  | some (v, r) => some (.Value v, r)
  | none => none

/-- The pratt loop of `parse_operation` (`src/main.rs` lines 105–116):
both operators at equal left binding power, so after the first atom the
loop repeatedly tries inline-ws `*` atom, else inline-ws `/` atom,
rewinding and stopping when neither applies; the fuel only bounds the
iteration count. -/
def parseOpsLoop : ℕ → Operation → List Char → Operation × List Char
  | 0, acc, s => (acc, s)
  | fuel + 1, acc, s =>
    match dropInlineWs s with
    | c :: r =>
      if c = '*' then
        match parseAtom r with
        | some (rhs, r2) => parseOpsLoop fuel (.Mul acc rhs) r2
        | none => (acc, s)
      else if c = '/' then
        match parseAtom r with
        | some (rhs, r2) => parseOpsLoop fuel (.Div acc rhs) r2
        | none => (acc, s)
      else (acc, s)
    | [] => (acc, s)

/-- `parse_operation` (`src/main.rs` lines 100–117). -/
def parse_operation (s : List Char) : Option (Operation × List Char) :=
  match parseAtom s with
  | some (l, r) => some (parseOpsLoop (r.length + 1) l r)
  | none => none

/-- chumsky `newline()`, restricted to `\r\n`, `\n` and `\r`. -/
def parseNewline (s : List Char) : Option (List Char) :=
  match s with
  | c :: r =>
    if c = '\n' then some r
    else if c = '\r' then
      match r with
      | c2 :: r2 => if c2 = '\n' then some r2 else some (c2 :: r2)
      | [] => some []
    else none
  | [] => none

/-- Everything up to the next line break: chumsky
`none_of("\n").ignored().repeated().to_slice()`. -/
def takeComment (s : List Char) : String := ⟨s.takeWhile (fun c => c ≠ '\n')⟩

/-- The remainder after a comment. -/
def dropComment (s : List Char) : List Char := s.dropWhile (fun c => c ≠ '\n')

/-- `parse_subtotal` (`src/main.rs` lines 119–148): zero-or-more dashes,
inline whitespace and a newline, then a result line that is either a
value with an optional whitespace-prefixed comment, or a comment only. -/
def parse_subtotal (s : List Char) : Option (Line × List Char) :=
  let s2 := dropInlineWs (s.dropWhile (fun c => c = '-'))
  match parseNewline s2 with
  | none => none
  | some s3 =>
    match parseValue s3 with
    | some (v, s4) =>
      match s4 with
      | c :: r =>
        if isInlineWs c then
          let r2 := dropInlineWs r
          some (.Subtotal (some v) (takeComment r2), dropComment r2)
        else some (.Subtotal (some v) "", c :: r)
      | [] => some (.Subtotal (some v) "", [])
    | none =>
      let u := dropInlineWs s3
      some (.Subtotal none (takeComment u), dropComment u)

/-- `parse_operation_line` (`src/main.rs` lines 150–164): an operation,
then optionally at-least-one inline whitespace and a comment. -/
def parse_operation_line (s : List Char) : Option (Line × List Char) :=
  match parse_operation s with
  | none => none
  | some (op, r) =>
    match r with
    | c :: r1 =>
      if isInlineWs c then
        let r2 := dropInlineWs r1
        some (.Operation op (takeComment r2), dropComment r2)
      else some (.Operation op "", c :: r1)
    | [] => some (.Operation op "", [])

/-- `parse_line` (`src/main.rs` lines 166–168): an operation line, else a
subtotal line. -/
def parse_line (s : List Char) : Option (Line × List Char) :=
  match parse_operation_line s with
  | some res => some res
  | none => parse_subtotal s

/-- `parse_line().then_ignore(whitespace()).repeated()` of `main`
(`src/main.rs` lines 293–299): greedily parse lines, consuming
whitespace after each; stop at the first failure. The fuel only bounds
the iteration count. -/
def parseLinesAux : ℕ → List Char → List Line × List Char
  | 0, s => ([], s)
  | fuel + 1, s =>
    match parse_line s with
    | none => ([], s)
    | some (l, r) =>
      let p := parseLinesAux fuel (dropWs r)
      (l :: p.1, p.2)

/-- The whole-document parse of `main`: all lines, then `end()`; `none`
when trailing input remains unconsumed. -/
def parseDoc (s : List Char) : Option (List Line) :=
  let p := parseLinesAux (s.length + 1) s
  if p.2 = [] then some p.1 else none

/-! ### Suffix stability of the greedy literal parsers -/

/-- A character that cannot continue a number literal. -/
def goodBreak (c : Char) : Prop := c.isDigit = false ∧ c ≠ '.'

/-- A continuation whose head, if any, cannot extend a number literal. -/
def BoundaryHead (l : List Char) : Prop := ∀ c ∈ l.head?, goodBreak c

theorem append_spans (p : Char → Bool) (u t : List Char)
    (hu : ∀ c ∈ u, p c = true) (ht : ∀ c ∈ t.head?, p c = false) :
    (u ++ t).takeWhile p = u ∧ (u ++ t).dropWhile p = t := by
  induction u with
  | nil =>
    cases t with
    | nil => simp
    | cons c r =>
      have := ht c (by simp)
      simp [List.takeWhile_cons, List.dropWhile_cons, this]
  | cons c u ih =>
    have hc := hu c (by simp)
    have h2 := ih fun d hd => hu d (List.mem_cons_of_mem _ hd)
    simp [List.takeWhile_cons, List.dropWhile_cons, hc, h2.1, h2.2]

theorem dropWhile_append_ne_nil (p : Char → Bool) (u t : List Char)
    (h : u.dropWhile p ≠ []) :
    (u ++ t).dropWhile p = u.dropWhile p ++ t := by
  induction u with
  | nil => simp at h
  | cons c u ih =>
    by_cases hc : p c = true
    · rw [List.dropWhile_cons, if_pos hc] at h
      rw [List.cons_append, List.dropWhile_cons, if_pos hc,
        List.dropWhile_cons, if_pos hc]
      exact ih h
    · rw [List.cons_append, List.dropWhile_cons, if_neg hc,
        List.dropWhile_cons, if_neg hc]
      simp

theorem head_dropWhile_false (p : Char → Bool) (l : List Char) :
    ∀ c ∈ (l.dropWhile p).head?, p c = false := by
  induction l with
  | nil => simp
  | cons c r ih =>
    by_cases hc : p c
    · simpa [List.dropWhile_cons, hc] using ih
    · simp [List.dropWhile_cons, hc]

theorem parseInt_append (s t : List Char) (n : ℕ) (rem : List Char)
    (h : parseInt s = some (n, rem))
    (hb : ∀ c ∈ (rem ++ t).head?, c.isDigit = false) :
    parseInt (s ++ t) = some (n, rem ++ t) := by
  cases s with
  | nil => simp [parseInt] at h
  | cons c r =>
    by_cases h0 : c = '0'
    · subst h0
      simp only [parseInt, Option.some.injEq, Prod.mk.injEq] at h
      obtain ⟨rfl, rfl⟩ := h
      simp [parseInt]
    · by_cases hd : c.isDigit
      · simp only [parseInt, if_neg h0, if_pos hd, Option.some.injEq,
          Prod.mk.injEq] at h
        obtain ⟨hn, hrem⟩ := h
        have hr : r.takeWhile Char.isDigit ++ r.dropWhile Char.isDigit = r :=
          List.takeWhile_append_dropWhile _ _
        have hsp := append_spans Char.isDigit (r.takeWhile Char.isDigit)
          (r.dropWhile Char.isDigit ++ t)
          (fun d hd' => List.mem_takeWhile_imp hd')
          (by rw [hrem]; exact hb)
        have hq : r.takeWhile Char.isDigit ++ (r.dropWhile Char.isDigit ++ t) =
            r ++ t := by rw [← List.append_assoc, hr]
        rw [hq] at hsp
        simp only [List.cons_append, parseInt, if_neg h0, if_pos hd,
          Option.some.injEq, Prod.mk.injEq, hsp.1, hsp.2]
        exact ⟨hn, by rw [hrem]⟩
      · simp [parseInt, if_neg h0, hd] at h

theorem parseDigits_append (s t : List Char) (v : ℕ × ℕ) (rem : List Char)
    (h : parseDigits s = some (v, rem))
    (hb : ∀ c ∈ (rem ++ t).head?, c.isDigit = false) :
    parseDigits (s ++ t) = some (v, rem ++ t) := by
  cases s with
  | nil => simp [parseDigits] at h
  | cons c r =>
    by_cases hd : c.isDigit
    · simp only [parseDigits, if_pos hd, Option.some.injEq, Prod.mk.injEq] at h
      obtain ⟨hn, hrem⟩ := h
      have hr : r.takeWhile Char.isDigit ++ r.dropWhile Char.isDigit = r :=
        List.takeWhile_append_dropWhile _ _
      have hsp := append_spans Char.isDigit (r.takeWhile Char.isDigit)
        (r.dropWhile Char.isDigit ++ t)
        (fun d hd' => List.mem_takeWhile_imp hd')
        (by rw [hrem]; exact hb)
      have hq : r.takeWhile Char.isDigit ++ (r.dropWhile Char.isDigit ++ t) =
          r ++ t := by rw [← List.append_assoc, hr]
      rw [hq] at hsp
      simp only [List.cons_append, parseDigits, if_pos hd, Option.some.injEq,
        Prod.mk.injEq, hsp.1, hsp.2]
      exact ⟨hn, by rw [hrem]⟩
    · simp [parseDigits, hd] at h

theorem parseUnsigned_append (s t : List Char) (q : ℚ) (rem : List Char)
    (h : parseUnsigned s = some (q, rem)) (hb : BoundaryHead (rem ++ t)) :
    parseUnsigned (s ++ t) = some (q, rem ++ t) := by
  cases hI : parseInt s with
  | none => simp [parseUnsigned, hI] at h
  | some p =>
    obtain ⟨ip, s2⟩ := p
    cases s2 with
    | nil =>
      simp only [parseUnsigned, hI, Option.some.injEq, Prod.mk.injEq] at h
      rcases h with ⟨hq, rfl⟩
      have hIApp := parseInt_append s t ip [] hI
        (fun c hc => (hb c (by simpa using hc)).1)
      cases t with
      | nil =>
        simp only [List.append_nil] at hIApp ⊢
        simp [parseUnsigned, hIApp, hq]
      | cons c r =>
        have hgb := hb c (by simp)
        simp only [parseUnsigned, hIApp, List.nil_append, if_neg hgb.2]
        simp [hq]
    | cons c r =>
      by_cases hdot : c = '.'
      · subst hdot
        cases hD : parseDigits r with
        | some p2 =>
          obtain ⟨fd, s3⟩ := p2
          simp only [parseUnsigned, hI, hD, if_pos rfl, if_true,
            Option.some.injEq, Prod.mk.injEq] at h
          rcases h with ⟨hq, rfl⟩
          have hIApp := parseInt_append s t ip ('.' :: r) hI
            (by intro c hc; simp at hc; subst hc; decide)
          have hDApp := parseDigits_append r t fd s3 hD
            (fun c hc => (hb c hc).1)
          simp only [parseUnsigned, hIApp, List.cons_append, if_pos rfl,
            if_true, hDApp]
          simp [hq]
        | none =>
          simp only [parseUnsigned, hI, hD, if_pos rfl, if_true,
            Option.some.injEq, Prod.mk.injEq] at h
          rcases h with ⟨hq, rfl⟩
          exact absurd (hb '.' (by simp)).2 (by simp)
      · simp only [parseUnsigned, hI, if_neg hdot, Option.some.injEq,
          Prod.mk.injEq] at h
        rcases h with ⟨hq, rfl⟩
        have hgb := hb c (by simp)
        have hIApp := parseInt_append s t ip (c :: r) hI
          (by intro d hd; simp at hd; subst hd; exact hgb.1)
        simp only [parseUnsigned, hIApp, List.cons_append, if_neg hdot]
        simp [hq]

theorem parseNumber_append (s t : List Char) (q : ℚ) (rem : List Char)
    (h : parseNumber s = some (q, rem)) (hb : BoundaryHead (rem ++ t)) :
    parseNumber (s ++ t) = some (q, rem ++ t) := by
  cases s with
  | nil => simp [parseNumber] at h
  | cons c r =>
    by_cases hc : c = '-'
    · subst hc
      simp only [parseNumber, if_pos rfl, if_true] at h ⊢
      cases hU : parseUnsigned r with
      | none => rw [hU] at h; exact absurd h (by simp)
      | some p =>
        obtain ⟨q', rem'⟩ := p
        rw [hU] at h
        simp only [Option.some.injEq, Prod.mk.injEq] at h
        rcases h with ⟨hq, rfl⟩
        have hUApp := parseUnsigned_append r t q' rem' hU hb
        simp only [List.cons_append, if_pos rfl, if_true, hUApp]
        simp [hq]
    · have heq : parseNumber (c :: r) = parseUnsigned (c :: r) := by
        simp [parseNumber, if_neg hc]
      rw [heq] at h
      rw [List.cons_append, parseNumber]
      simp only [if_neg hc]
      have := parseUnsigned_append (c :: r) t q rem h hb
      simpa using this

theorem parseNumber_nil : parseNumber [] = none := rfl

theorem dropWs_append (u t : List Char) (h : dropWs u ≠ []) :
    dropWs (u ++ t) = dropWs u ++ t :=
  dropWhile_append_ne_nil isWs u t h

theorem dropInlineWs_append (u t : List Char) (h : dropInlineWs u ≠ []) :
    dropInlineWs (u ++ t) = dropInlineWs u ++ t :=
  dropWhile_append_ne_nil isInlineWs u t h

theorem parseNumber_bracket (l : List Char) : parseNumber ('[' :: l) = none := by
  simp [parseNumber, parseUnsigned, parseInt]

theorem goodBreak_of_ws (c : Char) (h : isWs c = true) : goodBreak c := by
  simp only [isWs, Bool.or_eq_true, decide_eq_true_eq] at h
  rcases h with ((h | h) | h) | h <;> subst h <;> exact ⟨by decide, by decide⟩

theorem goodBreak_of_inlineWs (c : Char) (h : isInlineWs c = true) : goodBreak c := by
  simp only [isInlineWs, Bool.or_eq_true, decide_eq_true_eq] at h
  rcases h with h | h <;> subst h <;> exact ⟨by decide, by decide⟩

theorem boundary_of_dropWhile (p : Char → Bool) (u t : List Char) (c2 : Char)
    (s5 : List Char) (hW : u.dropWhile p = c2 :: s5)
    (hp : ∀ c, p c = true → goodBreak c) (hc2 : goodBreak c2) :
    BoundaryHead (u ++ t) := by
  cases u with
  | nil => simp at hW
  | cons d r =>
    intro c hc
    simp only [List.cons_append, List.head?_cons, Option.mem_def,
      Option.some.injEq] at hc
    subst hc
    by_cases hd : p d = true
    · exact hp d hd
    · rw [List.dropWhile_cons, if_neg hd] at hW
      injection hW with h1 h2
      subst h1
      exact hc2

theorem parseValue_ws_none (c : Char) (r : List Char) (hc : isWs c = true) :
    parseValue (c :: r) = none := by
  simp only [isWs, Bool.or_eq_true, decide_eq_true_eq] at hc
  rcases hc with ((h | h) | h) | h <;> subst h <;>
    simp [parseValue, parseNumber, parseUnsigned, parseInt]

theorem parseValue_head_not_ws (s : List Char) (v : Value) (rem : List Char)
    (h : parseValue s = some (v, rem)) :
    ∃ c r, s = c :: r ∧ isWs c = false := by
  cases s with
  | nil => simp [parseValue, parseNumber] at h
  | cons c r =>
    refine ⟨c, r, rfl, ?_⟩
    by_contra hws
    rw [parseValue_ws_none c r (by simpa using hws)] at h
    exact absurd h (by simp)

theorem parseValue_append (s t : List Char) (v : Value)
    (h : parseValue s = some (v, [])) (hb : BoundaryHead t) :
    parseValue (s ++ t) = some (v, t) := by
  cases hN : parseNumber s with
  | some p =>
    obtain ⟨q, rem⟩ := p
    simp only [parseValue, hN, Option.some.injEq, Prod.mk.injEq] at h
    rcases h with ⟨rfl, rfl⟩
    have hApp := parseNumber_append s t q [] hN (by simpa using hb)
    simp only [List.nil_append] at hApp
    simp [parseValue, hApp]
  | none =>
    cases s with
    | nil => simp [parseValue, parseNumber] at h
    | cons c s1 =>
      by_cases hc : c = '['
      · subst hc
        simp only [parseValue, hN, if_pos rfl, if_true] at h
        cases hA : parseNumber (dropInlineWs s1) with
        | none => simp only [hA] at h; exact absurd h (by simp)
        | some pa =>
          obtain ⟨a, s3⟩ := pa
          simp only [hA] at h
          cases hW : dropWs s3 with
          | nil => simp only [hW] at h; exact absurd h (by simp)
          | cons c2 s5 =>
            simp only [hW] at h
            by_cases hc2 : c2 = ','
            · subst hc2
              simp only [if_pos rfl, if_true] at h
              cases hB : parseNumber (dropWs s5) with
              | none => simp only [hB] at h; exact absurd h (by simp)
              | some pb =>
                obtain ⟨b, s7⟩ := pb
                simp only [hB] at h
                cases hI2 : dropInlineWs s7 with
                | nil => simp only [hI2] at h; exact absurd h (by simp)
                | cons c3 s9 =>
                  simp only [hI2] at h
                  by_cases hc3 : c3 = ']'
                  · subst hc3
                    simp only [if_pos rfl, if_true, Option.some.injEq,
                      Prod.mk.injEq] at h
                    rcases h with ⟨rfl, rfl⟩
                    have hs1ne : dropInlineWs s1 ≠ [] := by
                      intro he
                      rw [he, parseNumber_nil] at hA
                      exact absurd hA (by simp)
                    have hdrop1 : dropInlineWs (s1 ++ t) = dropInlineWs s1 ++ t :=
                      dropInlineWs_append s1 t hs1ne
                    have hs3b : BoundaryHead (s3 ++ t) :=
                      boundary_of_dropWhile isWs s3 t ',' s5 hW goodBreak_of_ws
                        ⟨by decide, by decide⟩
                    have hA2 := parseNumber_append (dropInlineWs s1) t a s3 hA hs3b
                    have hdrop2 : dropWs (s3 ++ t) = (',' :: s5) ++ t := by
                      rw [dropWs_append s3 t (by rw [hW]; simp), hW]
                    have hs5ne : dropWs s5 ≠ [] := by
                      intro he
                      rw [he, parseNumber_nil] at hB
                      exact absurd hB (by simp)
                    have hdrop3 : dropWs (s5 ++ t) = dropWs s5 ++ t :=
                      dropWs_append s5 t hs5ne
                    have hs7b : BoundaryHead (s7 ++ t) :=
                      boundary_of_dropWhile isInlineWs s7 t ']' [] hI2
                        goodBreak_of_inlineWs ⟨by decide, by decide⟩
                    have hB2 := parseNumber_append (dropWs s5) t b s7 hB hs7b
                    have hdrop4 : dropInlineWs (s7 ++ t) = [']'] ++ t := by
                      rw [dropInlineWs_append s7 t (by rw [hI2]; simp), hI2]
                    simp only [List.cons_append, parseValue, parseNumber_bracket,
                      if_pos rfl, if_true, hdrop1, hA2, hdrop2, hdrop3, hB2, hdrop4]
                    simp
                  · simp only [if_neg hc3] at h
                    exact absurd h (by simp)
            · simp only [if_neg hc2] at h
              exact absurd h (by simp)
      · simp only [parseValue, hN, if_neg hc] at h
        exact absurd h (by simp)

theorem isWs_of_inline (c : Char) (h : isInlineWs c = true) : isWs c = true := by
  simp only [isInlineWs, Bool.or_eq_true, decide_eq_true_eq] at h
  rcases h with h | h <;> subst h <;> decide

theorem parseAtom_pre (pre s rest : List Char) (v : Value)
    (hpre : ∀ c ∈ pre, isInlineWs c = true)
    (h : parseValue s = some (v, [])) (hrest : BoundaryHead rest) :
    parseAtom (pre ++ s ++ rest) = some (.Value v, rest) := by
  obtain ⟨c, r, rfl, hcws⟩ := parseValue_head_not_ws s v [] h
  have hcni : isInlineWs c = false := by
    cases hii : isInlineWs c
    · rfl
    · rw [isWs_of_inline c hii] at hcws
      exact absurd hcws (by simp)
  have hdrop : dropInlineWs (pre ++ (c :: r) ++ rest) = (c :: r) ++ rest := by
    rw [List.append_assoc]
    exact (append_spans isInlineWs pre ((c :: r) ++ rest) hpre
      (by intro d hd; simp at hd; subst hd; exact hcni)).2
  simp only [parseAtom, hdrop, parseValue_append (c :: r) rest v h hrest]

theorem parseOpsLoop_stop (fuel : ℕ) (acc : Operation) (s : List Char)
    (h : dropInlineWs s = []) : parseOpsLoop fuel acc s = (acc, s) := by
  cases fuel with
  | zero => rfl
  | succ fuel => simp only [parseOpsLoop, h]

theorem parseOpsLoop_mul (fuel : ℕ) (acc rhs : Operation) (s r r2 : List Char)
    (h1 : dropInlineWs s = '*' :: r) (h2 : parseAtom r = some (rhs, r2)) :
    parseOpsLoop (fuel + 1) acc s = parseOpsLoop fuel (.Mul acc rhs) r2 := by
  simp only [parseOpsLoop, h1, h2, if_pos rfl, if_true]

theorem parseOpsLoop_div (fuel : ℕ) (acc rhs : Operation) (s r r2 : List Char)
    (h1 : dropInlineWs s = '/' :: r) (h2 : parseAtom r = some (rhs, r2)) :
    parseOpsLoop (fuel + 1) acc s = parseOpsLoop fuel (.Div acc rhs) r2 := by
  simp only [parseOpsLoop, h1, h2,
    if_neg (show ¬(('/' : Char) = '*') by decide), if_pos rfl, if_true]

/-- Claim C6: `*` and `/` have equal precedence and strict left
associativity: for value literals `a`, `b`, `c` (each a string that the
value parser consumes exactly), the line `a * b / c` parses to
`Div(Mul(a, b), c)` and the line `a / b * c` parses to
`Mul(Div(a, b), c)`. -/
theorem parse_operation_left_assoc (sa sb sc : List Char) (va vb vc : Value)
    (ha : parseValue sa = some (va, []))
    (hb : parseValue sb = some (vb, []))
    (hc : parseValue sc = some (vc, [])) :
    parse_operation (sa ++ (' ' :: '*' :: ' ' :: sb) ++ (' ' :: '/' :: ' ' :: sc)) =
      some (.Div (.Mul (.Value va) (.Value vb)) (.Value vc), []) ∧
    parse_operation (sa ++ (' ' :: '/' :: ' ' :: sb) ++ (' ' :: '*' :: ' ' :: sc)) =
      some (.Mul (.Div (.Value va) (.Value vb)) (.Value vc), []) := by
  have hspace : goodBreak ' ' := ⟨by decide, by decide⟩
  have hatomc : ∀ o : Char, parseAtom (' ' :: sc) = some (.Value vc, []) := by
    intro o
    have := parseAtom_pre [' '] sc [] vc (by simp [isInlineWs]) hc
      (by intro d hd; simp at hd)
    simpa using this
  constructor
  · have hB : BoundaryHead (' ' :: '/' :: ' ' :: sc) := by
      intro d hd; simp at hd; subst hd; exact hspace
    have hAtom1 := parseAtom_pre [] sa
      (' ' :: '*' :: ' ' :: (sb ++ (' ' :: '/' :: ' ' :: sc))) va (by simp) ha
      (by intro d hd; simp at hd; subst hd; exact hspace)
    have hAtom2 : parseAtom (' ' :: (sb ++ (' ' :: '/' :: ' ' :: sc))) =
        some (.Value vb, ' ' :: '/' :: ' ' :: sc) := by
      have := parseAtom_pre [' '] sb (' ' :: '/' :: ' ' :: sc) vb
        (by simp [isInlineWs]) hb hB
      simpa using this
    have hEq : sa ++ (' ' :: '*' :: ' ' :: sb) ++ (' ' :: '/' :: ' ' :: sc) =
        sa ++ (' ' :: '*' :: ' ' :: (sb ++ (' ' :: '/' :: ' ' :: sc))) := by
      simp
    rw [hEq, parse_operation]
    simp only [List.nil_append] at hAtom1
    simp only [hAtom1]
    obtain ⟨m, hm⟩ : ∃ m,
        (' ' :: '*' :: ' ' :: (sb ++ (' ' :: '/' :: ' ' :: sc))).length + 1 =
          m + 1 + 1 :=
      ⟨(sb ++ (' ' :: '/' :: ' ' :: sc)).length + 2, by simp⟩
    rw [hm, parseOpsLoop_mul (m + 1) (.Value va) (.Value vb)
      (' ' :: '*' :: ' ' :: (sb ++ (' ' :: '/' :: ' ' :: sc)))
      (' ' :: (sb ++ (' ' :: '/' :: ' ' :: sc)))
      (' ' :: '/' :: ' ' :: sc) rfl hAtom2,
      parseOpsLoop_div m (.Mul (.Value va) (.Value vb)) (.Value vc)
        (' ' :: '/' :: ' ' :: sc) (' ' :: sc) [] rfl (hatomc '/'),
      parseOpsLoop_stop m (.Div (.Mul (.Value va) (.Value vb)) (.Value vc))
        [] rfl]
  · have hB : BoundaryHead (' ' :: '*' :: ' ' :: sc) := by
      intro d hd; simp at hd; subst hd; exact hspace
    have hAtom1 := parseAtom_pre [] sa
      (' ' :: '/' :: ' ' :: (sb ++ (' ' :: '*' :: ' ' :: sc))) va (by simp) ha
      (by intro d hd; simp at hd; subst hd; exact hspace)
    have hAtom2 : parseAtom (' ' :: (sb ++ (' ' :: '*' :: ' ' :: sc))) =
        some (.Value vb, ' ' :: '*' :: ' ' :: sc) := by
      have := parseAtom_pre [' '] sb (' ' :: '*' :: ' ' :: sc) vb
        (by simp [isInlineWs]) hb hB
      simpa using this
    have hEq : sa ++ (' ' :: '/' :: ' ' :: sb) ++ (' ' :: '*' :: ' ' :: sc) =
        sa ++ (' ' :: '/' :: ' ' :: (sb ++ (' ' :: '*' :: ' ' :: sc))) := by
      simp
    rw [hEq, parse_operation]
    simp only [List.nil_append] at hAtom1
    simp only [hAtom1]
    obtain ⟨m, hm⟩ : ∃ m,
        (' ' :: '/' :: ' ' :: (sb ++ (' ' :: '*' :: ' ' :: sc))).length + 1 =
          m + 1 + 1 :=
      ⟨(sb ++ (' ' :: '*' :: ' ' :: sc)).length + 2, by simp⟩
    rw [hm, parseOpsLoop_div (m + 1) (.Value va) (.Value vb)
      (' ' :: '/' :: ' ' :: (sb ++ (' ' :: '*' :: ' ' :: sc)))
      (' ' :: (sb ++ (' ' :: '*' :: ' ' :: sc)))
      (' ' :: '*' :: ' ' :: sc) rfl hAtom2,
      parseOpsLoop_mul m (.Div (.Value va) (.Value vb)) (.Value vc)
        (' ' :: '*' :: ' ' :: sc) (' ' :: sc) [] rfl (hatomc '*'),
      parseOpsLoop_stop m (.Mul (.Div (.Value va) (.Value vb)) (.Value vc))
        [] rfl]

/-- Witness for claim C6 on the concrete lines `1 * 2 / 4` and
`1 / 2 * 4`. -/
theorem parse_operation_left_assoc_witness :
    parse_operation (['1'] ++ (' ' :: '*' :: ' ' :: ['2']) ++
        (' ' :: '/' :: ' ' :: ['4'])) =
      some (.Div (.Mul (.Value (.Number 1)) (.Value (.Number 2)))
        (.Value (.Number 4)), []) ∧
    parse_operation (['1'] ++ (' ' :: '/' :: ' ' :: ['2']) ++
        (' ' :: '*' :: ' ' :: ['4'])) =
      some (.Mul (.Div (.Value (.Number 1)) (.Value (.Number 2)))
        (.Value (.Number 4)), []) :=
  parse_operation_left_assoc ['1'] ['2'] ['4']
    (.Number 1) (.Number 2) (.Number 4)
    (by
      have hd : digitsToNat ['1'] = 1 := by decide
      simp [parseValue, parseNumber, parseUnsigned, parseInt, hd])
    (by
      have hd : digitsToNat ['2'] = 2 := by decide
      simp [parseValue, parseNumber, parseUnsigned, parseInt, hd])
    (by
      have hd : digitsToNat ['4'] = 4 := by decide
      simp [parseValue, parseNumber, parseUnsigned, parseInt, hd])

/-! ### Rendering–parsing roundtrip, digit level -/

/-- Value of a least-significant-digit-first list. -/
def digitsVal : List ℕ → ℕ
  | [] => 0
  | d :: ds => d + 10 * digitsVal ds

theorem getLast?_cons_of_ne {α : Type} (y : α) (l : List α) (h : l ≠ []) :
    (y :: l).getLast? = l.getLast? := by
  cases l with
  | nil => exact absurd rfl h
  | cons b bs => rfl

theorem natDigitsRev_spec (fuel : ℕ) : ∀ n : ℕ, n < fuel →
    natDigitsRev fuel n ≠ [] ∧ (∀ d ∈ natDigitsRev fuel n, d ≤ 9) ∧
    digitsVal (natDigitsRev fuel n) = n ∧
    (∀ d, (natDigitsRev fuel n).getLast? = some d → d = 0 → n = 0) := by
  induction fuel with
  | zero => intro n hn; omega
  | succ fuel ih =>
    intro n hn
    by_cases hsmall : n < 10
    · refine ⟨by simp [natDigitsRev, hsmall], ?_, ?_, ?_⟩
      · intro d hd
        simp [natDigitsRev, hsmall] at hd
        omega
      · simp [natDigitsRev, hsmall, digitsVal]
      · intro d hd h0
        simp [natDigitsRev, hsmall] at hd
        omega
    · have hdiv : n / 10 < fuel := by omega
      obtain ⟨hne, hdig, hval, hlast⟩ := ih (n / 10) hdiv
      have hunf : natDigitsRev (fuel + 1) n =
          n % 10 :: natDigitsRev fuel (n / 10) := by
        simp [natDigitsRev, hsmall]
      refine ⟨by simp [hunf], ?_, ?_, ?_⟩
      · intro d hd
        rw [hunf] at hd
        rcases List.mem_cons.mp hd with h | h
        · omega
        · exact hdig d h
      · rw [hunf]
        simp only [digitsVal, hval]
        omega
      · intro d hd h0
        rw [hunf, getLast?_cons_of_ne _ _ hne] at hd
        have := hlast d hd h0
        omega

theorem digitChar_isDigit (d : ℕ) (hd : d ≤ 9) :
    (Nat.digitChar d).isDigit = true := by
  interval_cases d <;> decide

theorem digitChar_toNat (d : ℕ) (hd : d ≤ 9) :
    (Nat.digitChar d).toNat - 48 = d := by
  interval_cases d <;> decide

theorem digitsToNat_rev_map (ds : List ℕ) (h : ∀ d ∈ ds, d ≤ 9) :
    digitsToNat ((ds.reverse).map Nat.digitChar) = digitsVal ds := by
  induction ds with
  | nil => rfl
  | cons d ds ih =>
    have hd := h d (by simp)
    have ih' := ih fun e he => h e (List.mem_cons_of_mem _ he)
    simp only [List.reverse_cons, List.map_append, List.map_cons, List.map_nil]
    simp only [digitsToNat, List.foldl_append, List.foldl_cons, List.foldl_nil]
    simp only [digitsToNat] at ih'
    rw [ih', digitChar_toNat d hd, digitsVal]
    ring

theorem natChars_ne_nil (n : ℕ) : natChars n ≠ [] := by
  have := (natDigitsRev_spec (n + 1) n (by omega)).1
  simp [natChars]
  intro hcon
  exact absurd hcon this

theorem natChars_digits (n : ℕ) : ∀ c ∈ natChars n, c.isDigit = true := by
  intro c hc
  simp only [natChars, List.mem_map, List.mem_reverse] at hc
  obtain ⟨d, hd, rfl⟩ := hc
  exact digitChar_isDigit d ((natDigitsRev_spec (n + 1) n (by omega)).2.1 d hd)

theorem digitsToNat_natChars (n : ℕ) : digitsToNat (natChars n) = n := by
  obtain ⟨-, hdig, hval, -⟩ := natDigitsRev_spec (n + 1) n (by omega)
  rw [natChars, digitsToNat_rev_map _ hdig, hval]

theorem natChars_head (n : ℕ) (c : Char) (cs : List Char)
    (h : natChars n = c :: cs) (h0 : c = '0') : n = 0 := by
  obtain ⟨hne, hdig, -, hlast⟩ := natDigitsRev_spec (n + 1) n (by omega)
  have hhead : ((natDigitsRev (n + 1) n).reverse.map Nat.digitChar).head? =
      some c := by
    rw [← natChars, h]; rfl
  rw [List.head?_map, List.head?_reverse] at hhead
  cases hlastEq : (natDigitsRev (n + 1) n).getLast? with
  | none => rw [hlastEq] at hhead; exact absurd hhead (by simp)
  | some d =>
    rw [hlastEq] at hhead
    simp only [Option.map_some', Option.some.injEq] at hhead
    have hd9 : d ≤ 9 := by
      refine hdig d ?_
      obtain ⟨hne2, heq⟩ := List.mem_getLast?_eq_getLast
        (show d ∈ (natDigitsRev (n + 1) n).getLast? from by
          rw [Option.mem_def, hlastEq])
      rw [heq]
      exact List.getLast_mem hne2
    refine hlast d hlastEq ?_
    rw [← hhead] at h0
    exact (digitChar_eq_zero_iff d hd9).mp h0

theorem parseInt_natChars (n : ℕ) (t : List Char)
    (ht : ∀ c ∈ t.head?, c.isDigit = false) :
    parseInt (natChars n ++ t) = some (n, t) := by
  cases hnc : natChars n with
  | nil => exact absurd hnc (natChars_ne_nil n)
  | cons c cs =>
    by_cases h0 : c = '0'
    · have hn0 : n = 0 := natChars_head n c cs hnc h0
      subst hn0
      have : natChars 0 = ['0'] := by decide
      rw [this] at hnc
      injection hnc with h1 h2
      subst h0
      simp only [← h2, List.cons_append, List.nil_append, parseInt, if_pos rfl,
        if_true]
    · have hcd : c.isDigit = true := natChars_digits n c (by rw [hnc]; simp)
      have hcsd : ∀ d ∈ cs, d.isDigit = true := fun d hd =>
        natChars_digits n d (by rw [hnc]; simp [hd])
      have hsp := append_spans Char.isDigit cs t hcsd ht
      simp only [List.cons_append, parseInt, if_neg h0, if_pos hcd, hsp.1, hsp.2,
        Option.some.injEq, Prod.mk.injEq]
      refine ⟨?_, trivial⟩
      rw [← hnc, digitsToNat_natChars]

theorem data_append (s t : String) : (s ++ t).data = s.data ++ t.data := rfl

theorem digitChar_ne_dash (d : ℕ) (hd : d ≤ 9) : Nat.digitChar d ≠ '-' := by
  interval_cases d <;> decide

theorem natChars_head_not_dash (n : ℕ) (c : Char) (cs : List Char)
    (h : natChars n = c :: cs) : ¬c = '-' := by
  intro hc
  have hcd : c.isDigit = true := natChars_digits n c (by rw [h]; simp)
  rw [hc] at hcd
  exact absurd hcd (by decide)

/-- Parse of the two-decimal tail `.d₁` (one significant decimal). -/
theorem parseDigits_one (d : ℕ) (t : List Char) (hd : d ≤ 9)
    (ht : ∀ c ∈ t.head?, c.isDigit = false) :
    parseDigits (Nat.digitChar d :: t) = some ((d, 1), t) := by
  have hsp := append_spans Char.isDigit [] t (by simp) ht
  simp only [List.nil_append] at hsp
  simp only [parseDigits, if_pos (digitChar_isDigit d hd), hsp.1, hsp.2,
    Option.some.injEq, Prod.mk.injEq]
  refine ⟨⟨?_, rfl⟩, trivial⟩
  simp [digitsToNat, digitChar_toNat d hd]

/-- Parse of the two-decimal tail `.d₁d₂`. -/
theorem parseDigits_two (d e : ℕ) (t : List Char) (hd : d ≤ 9) (he : e ≤ 9)
    (ht : ∀ c ∈ t.head?, c.isDigit = false) :
    parseDigits (Nat.digitChar d :: Nat.digitChar e :: t) =
      some ((10 * d + e, 2), t) := by
  have hsp := append_spans Char.isDigit [Nat.digitChar e] t
    (by intro c hc; simp at hc; subst hc; exact digitChar_isDigit e he) ht
  simp only [List.cons_append, List.nil_append] at hsp
  simp only [parseDigits, if_pos (digitChar_isDigit d hd), hsp.1, hsp.2,
    Option.some.injEq, Prod.mk.injEq]
  refine ⟨⟨?_, rfl⟩, trivial⟩
  simp [digitsToNat, digitChar_toNat d hd, digitChar_toNat e he]

/-- Parsing the normalized rendering of `k` hundredths recovers `k / 100`
exactly. -/
theorem parseNumber_normChars (k : ℤ) (t : List Char) (hb : BoundaryHead t) :
    parseNumber (normChars k ++ t) = some ((k : ℚ) / 100, t) := by
  have htd : ∀ c ∈ t.head?, c.isDigit = false := fun c hc => (hb c hc).1
  have hcore : parseUnsigned
      ((if k.natAbs % 100 = 0 then natChars (k.natAbs / 100)
        else if k.natAbs % 100 % 10 = 0 then
          natChars (k.natAbs / 100) ++ ['.', Nat.digitChar (k.natAbs % 100 / 10)]
        else natChars (k.natAbs / 100) ++
          ['.', Nat.digitChar (k.natAbs % 100 / 10),
            Nat.digitChar (k.natAbs % 100 % 10)]) ++ t) =
      some ((k.natAbs : ℚ) / 100, t) := by
    have hfr : k.natAbs % 100 < 100 := Nat.mod_lt _ (by norm_num)
    have hd1 : k.natAbs % 100 / 10 ≤ 9 := by omega
    have hd2 : k.natAbs % 100 % 10 ≤ 9 := by omega
    by_cases h0 : k.natAbs % 100 = 0
    · simp only [if_pos h0]
      have hInt := parseInt_natChars (k.natAbs / 100) t htd
      have hvq : ((k.natAbs / 100 : ℕ) : ℚ) = (k.natAbs : ℚ) / 100 := by
        have hdvd : (k.natAbs / 100) * 100 = k.natAbs := by omega
        have h3 := congrArg (fun n : ℕ => (n : ℚ)) hdvd
        push_cast at h3
        rw [eq_div_iff (by norm_num : (100 : ℚ) ≠ 0)]
        linarith [h3]
      cases t with
      | nil =>
        simp only [List.append_nil] at hInt
        simp [parseUnsigned, hInt, hvq]
      | cons c r =>
        have hgb := hb c (by simp)
        simp only [parseUnsigned, hInt, if_neg hgb.2]
        simp [hvq]
    · by_cases h10 : k.natAbs % 100 % 10 = 0
      · simp only [if_neg h0, if_pos h10, List.append_assoc, List.cons_append,
          List.nil_append]
        have hInt := parseInt_natChars (k.natAbs / 100)
          ('.' :: Nat.digitChar (k.natAbs % 100 / 10) :: t)
          (by intro c hc; simp at hc; subst hc; decide)
        have hDig := parseDigits_one (k.natAbs % 100 / 10) t hd1 htd
        simp only [parseUnsigned, hInt, if_pos rfl, if_true, hDig,
          Option.some.injEq, Prod.mk.injEq]
        refine ⟨?_, trivial⟩
        have hsplit : (k.natAbs / 100) * 100 + (k.natAbs % 100 / 10) * 10 =
            k.natAbs := by omega
        have h3 := congrArg (fun n : ℕ => (n : ℚ)) hsplit
        push_cast at h3
        rw [eq_div_iff (by norm_num : (100 : ℚ) ≠ 0)]
        ring_nf
        ring_nf at h3
        linarith [h3]
      · simp only [if_neg h0, if_neg h10, List.append_assoc, List.cons_append,
          List.nil_append]
        have hInt := parseInt_natChars (k.natAbs / 100)
          ('.' :: Nat.digitChar (k.natAbs % 100 / 10) ::
            Nat.digitChar (k.natAbs % 100 % 10) :: t)
          (by intro c hc; simp at hc; subst hc; decide)
        have hDig := parseDigits_two (k.natAbs % 100 / 10) (k.natAbs % 100 % 10)
          t hd1 hd2 htd
        simp only [parseUnsigned, hInt, if_pos rfl, if_true, hDig,
          Option.some.injEq, Prod.mk.injEq]
        refine ⟨?_, trivial⟩
        have hsplit : (k.natAbs / 100) * 100 +
            (10 * (k.natAbs % 100 / 10) + k.natAbs % 100 % 10) = k.natAbs := by
          omega
        have h3 := congrArg (fun n : ℕ => (n : ℚ)) hsplit
        push_cast at h3
        rw [eq_div_iff (by norm_num : (100 : ℚ) ≠ 0)]
        push_cast
        ring_nf
        ring_nf at h3
        linarith [h3]
  by_cases hneg : k < 0
  · have hshape : normChars k ++ t = '-' ::
        ((if k.natAbs % 100 = 0 then natChars (k.natAbs / 100)
          else if k.natAbs % 100 % 10 = 0 then
            natChars (k.natAbs / 100) ++
              ['.', Nat.digitChar (k.natAbs % 100 / 10)]
          else natChars (k.natAbs / 100) ++
            ['.', Nat.digitChar (k.natAbs % 100 / 10),
              Nat.digitChar (k.natAbs % 100 % 10)]) ++ t) := by
      simp only [normChars, if_pos hneg]
      by_cases h0 : k.natAbs % 100 = 0
      · simp [h0]
      · by_cases h10 : k.natAbs % 100 % 10 = 0 <;> simp [h0, h10]
    rw [hshape, parseNumber]
    simp only [if_pos rfl, if_true, hcore]
    have hval : -((k.natAbs : ℚ) / 100) = (k : ℚ) / 100 := by
      have h2 : ((k.natAbs : ℚ)) = -(k : ℚ) := by
        rw [Nat.cast_natAbs, abs_of_neg hneg]
        push_cast
        ring
      rw [h2]
      ring
    rw [hval]
  · have hshape : normChars k =
        (if k.natAbs % 100 = 0 then natChars (k.natAbs / 100)
          else if k.natAbs % 100 % 10 = 0 then
            natChars (k.natAbs / 100) ++
              ['.', Nat.digitChar (k.natAbs % 100 / 10)]
          else natChars (k.natAbs / 100) ++
            ['.', Nat.digitChar (k.natAbs % 100 / 10),
              Nat.digitChar (k.natAbs % 100 % 10)]) := by
      simp only [normChars, if_neg hneg, List.nil_append]
    cases hnc : natChars (k.natAbs / 100) with
    | nil => exact absurd hnc (natChars_ne_nil _)
    | cons c cs =>
      have hcd : c.isDigit = true := natChars_digits _ c (by rw [hnc]; simp)
      have hex : ∃ cs', (if k.natAbs % 100 = 0 then natChars (k.natAbs / 100)
          else if k.natAbs % 100 % 10 = 0 then
            natChars (k.natAbs / 100) ++
              ['.', Nat.digitChar (k.natAbs % 100 / 10)]
          else natChars (k.natAbs / 100) ++
            ['.', Nat.digitChar (k.natAbs % 100 / 10),
              Nat.digitChar (k.natAbs % 100 % 10)]) = c :: cs' := by
        by_cases h0 : k.natAbs % 100 = 0
        · exact ⟨cs, by rw [if_pos h0, hnc]⟩
        · by_cases h10 : k.natAbs % 100 % 10 = 0
          · exact ⟨cs ++ ['.', Nat.digitChar (k.natAbs % 100 / 10)],
              by rw [if_neg h0, if_pos h10, hnc]; simp⟩
          · exact ⟨cs ++ ['.', Nat.digitChar (k.natAbs % 100 / 10),
              Nat.digitChar (k.natAbs % 100 % 10)],
              by rw [if_neg h0, if_neg h10, hnc]; simp⟩
      obtain ⟨cs', hcs'⟩ := hex
      have hne : ¬c = '-' := by
        intro h
        rw [h] at hcd
        exact absurd hcd (by decide)
      rw [hshape, hcs', List.cons_append, parseNumber]
      simp only [if_neg hne]
      rw [← List.cons_append, ← hcs', hcore]
      have hval : ((k.natAbs : ℚ)) = (k : ℚ) := by
        rw [Nat.cast_natAbs, abs_of_nonneg (not_lt.mp hneg)]
      rw [hval]

/-- The value as re-read after 2-decimal rounding and printing. -/
def dec2 : Value → Value
  | .Number q => .Number ((hundredths q : ℚ) / 100)
  | .Interval a b =>
      .Interval ((hundredths a : ℚ) / 100) ((hundredths b : ℚ) / 100)

/-- A value whose components survive 2-decimal rounding unchanged. -/
def valueNormalized : Value → Prop
  | .Number q => ((hundredths q : ℚ)) = q * 100
  | .Interval a b =>
      ((hundredths a : ℚ)) = a * 100 ∧ ((hundredths b : ℚ)) = b * 100

theorem dec2_of_normalized (v : Value) (h : valueNormalized v) : dec2 v = v := by
  cases v with
  | Number q =>
    simp only [valueNormalized] at h
    simp only [dec2, h, Value.Number.injEq]
    field_simp
  | Interval a b =>
    simp only [valueNormalized] at h
    simp only [dec2, h.1, h.2, Value.Interval.injEq]
    constructor <;> field_simp

theorem digit_not_ws (c : Char) (h : c.isDigit = true) : isWs c = false := by
  cases hw : isWs c
  · rfl
  · exfalso
    simp only [isWs, Bool.or_eq_true, decide_eq_true_eq] at hw
    rcases hw with ((h1 | h1) | h1) | h1 <;> subst h1 <;> exact absurd h (by decide)

theorem normChars_cons (k : ℤ) :
    ∃ c cs, normChars k = c :: cs ∧ isWs c = false := by
  by_cases hneg : k < 0
  · refine ⟨'-', (normChars k).tail, ?_, by decide⟩
    simp only [normChars, if_pos hneg]
    by_cases h0 : k.natAbs % 100 = 0
    · simp [h0]
    · by_cases h10 : k.natAbs % 100 % 10 = 0 <;> simp [h0, h10]
  · cases hnc : natChars (k.natAbs / 100) with
    | nil => exact absurd hnc (natChars_ne_nil _)
    | cons d ds =>
      have hdd : d.isDigit = true := natChars_digits _ d (by rw [hnc]; simp)
      have hex : ∃ cs', normChars k = d :: cs' := by
        simp only [normChars, if_neg hneg, List.nil_append]
        by_cases h0 : k.natAbs % 100 = 0
        · exact ⟨ds, by rw [if_pos h0, hnc]⟩
        · by_cases h10 : k.natAbs % 100 % 10 = 0
          · exact ⟨ds ++ ['.', Nat.digitChar (k.natAbs % 100 / 10)],
              by rw [if_neg h0, if_pos h10, hnc]; simp⟩
          · exact ⟨ds ++ ['.', Nat.digitChar (k.natAbs % 100 / 10),
              Nat.digitChar (k.natAbs % 100 % 10)],
              by rw [if_neg h0, if_neg h10, hnc]; simp⟩
      obtain ⟨cs', hcs'⟩ := hex
      exact ⟨d, cs', hcs', digit_not_ws d hdd⟩

theorem normChars_head_nws (k : ℤ) :
    ∀ c ∈ (normChars k).head?, isWs c = false := by
  obtain ⟨c, cs, hcs, hws⟩ := normChars_cons k
  intro d hd
  rw [hcs] at hd
  simp at hd
  subst hd
  exact hws

theorem normChars_nonempty (k : ℤ) : normChars k ≠ [] := by
  obtain ⟨c, cs, hcs, -⟩ := normChars_cons k
  rw [hcs]
  simp

theorem dropWhile_cons_head_false (p : Char → Bool) (u v : List Char)
    (hu : ∀ c ∈ u.head?, p c = false) (hne : u ≠ []) :
    (u ++ v).dropWhile p = u ++ v := by
  cases u with
  | nil => exact absurd rfl hne
  | cons c r =>
    have := hu c (by simp)
    simp [List.dropWhile_cons, this]

theorem ws_imp_inline_false (c : Char) (h : isWs c = false) :
    isInlineWs c = false := by
  cases hi : isInlineWs c
  · rfl
  · rw [isWs_of_inline c hi] at h
    exact absurd h (by simp)

/-- Parsing the printed form of a value yields its 2-decimal rounding. -/
theorem parseValue_render (v : Value) (t : List Char) (hb : BoundaryHead t) :
    parseValue ((pretty_print_value v).data ++ t) = some (dec2 v, t) := by
  cases v with
  | Number q =>
    have hdata : (pretty_print_value (.Number q)).data =
        normChars (hundredths q) := rfl
    rw [hdata]
    simp only [parseValue, parseNumber_normChars (hundredths q) t hb]
    rfl
  | Interval a b =>
    have hdata : (pretty_print_value (.Interval a b)).data =
        '[' :: (normChars (hundredths a) ++
          (',' :: ' ' :: (normChars (hundredths b) ++ [']']))) := by
      show ("[" ++ renderNum a ++ ", " ++ renderNum b ++ "]").data = _
      simp only [data_append]
      have hr : ∀ q : ℚ, (renderNum q).data = normChars (hundredths q) :=
        fun q => rfl
      simp [hr]
    rw [hdata]
    have hA := parseNumber_normChars (hundredths a)
      (',' :: ' ' :: (normChars (hundredths b) ++ (']' :: t)))
      (by intro c hc; simp at hc; subst hc; exact ⟨by decide, by decide⟩)
    have hB := parseNumber_normChars (hundredths b) (']' :: t)
      (by intro c hc; simp at hc; subst hc; exact ⟨by decide, by decide⟩)
    have hd1 : dropInlineWs (normChars (hundredths a) ++
        (',' :: ' ' :: (normChars (hundredths b) ++ (']' :: t)))) =
        normChars (hundredths a) ++
          (',' :: ' ' :: (normChars (hundredths b) ++ (']' :: t))) :=
      dropWhile_cons_head_false isInlineWs _ _
        (fun c hc => ws_imp_inline_false c (normChars_head_nws _ c hc))
        (normChars_nonempty _)
    have hd2 : dropWs (',' :: ' ' :: (normChars (hundredths b) ++ (']' :: t))) =
        ',' :: ' ' :: (normChars (hundredths b) ++ (']' :: t)) := by
      rw [dropWs, List.dropWhile_cons, show isWs ',' = false from by decide]
      simp
    have hd3 : dropWs (' ' :: (normChars (hundredths b) ++ (']' :: t))) =
        normChars (hundredths b) ++ (']' :: t) := by
      have h1 : dropWs (' ' :: (normChars (hundredths b) ++ (']' :: t))) =
          dropWs (normChars (hundredths b) ++ (']' :: t)) := by
        rw [dropWs, List.dropWhile_cons, show isWs ' ' = true from by decide]
        simp [dropWs]
      rw [h1]
      exact dropWhile_cons_head_false isWs _ _ (normChars_head_nws _)
        (normChars_nonempty _)
    have hd4 : dropInlineWs (']' :: t) = ']' :: t := by
      rw [dropInlineWs, List.dropWhile_cons,
        show isInlineWs ']' = false from by decide]
      simp
    simp only [List.cons_append, List.append_assoc, List.nil_append]
    simp only [parseValue, parseNumber_bracket, if_pos rfl, if_true, hd1, hA,
      hd2, hd3, hB, hd4]
    rfl

/-- Parsing the printed form of a normalized value yields the value
itself. -/
theorem parseValue_render_normalized (v : Value) (t : List Char)
    (hb : BoundaryHead t) (hn : valueNormalized v) :
    parseValue ((pretty_print_value v).data ++ t) = some (v, t) := by
  rw [parseValue_render v t hb, dec2_of_normalized v hn]

/-! ### Roundtrip for whole expression trees -/

/-- Left-leaning expression trees, as the pratt parser produces them: the
right child of every operator node is a leaf. -/
def rightLeaf : Operation → Prop
  | .Mul l r => rightLeaf l ∧ ∃ v, r = .Value v
  | .Div l r => rightLeaf l ∧ ∃ v, r = .Value v
  | .Value _ => True

/-- All literal values of a tree are 2-decimal normalized. -/
def opNormalized : Operation → Prop
  | .Mul l r => opNormalized l ∧ opNormalized r
  | .Div l r => opNormalized l ∧ opNormalized r
  | .Value v => valueNormalized v

/-- Rebuild a left-leaning chain from its leftmost atom and the ordered
operator–value pairs. -/
def buildChain (a : Operation) (items : List (Bool × Value)) : Operation :=
  items.foldl
    (fun acc bv =>
      if bv.1 then .Mul acc (.Value bv.2) else .Div acc (.Value bv.2)) a

/-- The printed text of a chain after its leftmost atom. -/
def chainText (items : List (Bool × Value)) : List Char :=
  (items.map (fun bv =>
    ' ' :: (if bv.1 then '*' else '/') :: ' ' ::
      (pretty_print_value bv.2).data)).flatten

/-- A suffix at which the pratt loop stops. -/
def opBreak (u : List Char) : Prop :=
  ∀ c ∈ (dropInlineWs u).head?, ¬c = '*' ∧ ¬c = '/'

theorem print_buildChain (items : List (Bool × Value)) :
    ∀ a : Operation, (pretty_print_operation (buildChain a items)).data =
      (pretty_print_operation a).data ++ chainText items := by
  induction items with
  | nil => intro a; simp [buildChain, chainText]
  | cons bv items ih =>
    intro a
    have hstep : buildChain a (bv :: items) =
        buildChain (if bv.1 then .Mul a (.Value bv.2)
          else .Div a (.Value bv.2)) items := by
      simp [buildChain, List.foldl_cons]
    rw [hstep, ih]
    by_cases hb1 : bv.1 = true
    · simp only [hb1, if_true, pretty_print_operation, data_append, chainText,
        List.map_cons, List.flatten]
      simp [chainText]
    · simp only [Bool.not_eq_true] at hb1
      simp only [hb1, Bool.false_eq_true, if_false, pretty_print_operation,
        data_append, chainText, List.map_cons, List.flatten]
      simp [chainText]

theorem opNormalized_buildChain (items : List (Bool × Value)) :
    ∀ a : Operation, opNormalized (buildChain a items) ↔
      (opNormalized a ∧ ∀ bv ∈ items, valueNormalized bv.2) := by
  induction items with
  | nil => intro a; simp [buildChain]
  | cons bv items ih =>
    intro a
    have hstep : buildChain a (bv :: items) =
        buildChain (if bv.1 then .Mul a (.Value bv.2)
          else .Div a (.Value bv.2)) items := by
      simp [buildChain, List.foldl_cons]
    rw [hstep, ih]
    have hnode : opNormalized (if bv.1 then Operation.Mul a (.Value bv.2)
        else Operation.Div a (.Value bv.2)) ↔
        (opNormalized a ∧ valueNormalized bv.2) := by
      by_cases hb1 : bv.1 = true <;> simp [hb1, opNormalized]
    rw [hnode]
    constructor
    · rintro ⟨⟨h1, h2⟩, h3⟩
      refine ⟨h1, ?_⟩
      intro x hx
      rcases List.mem_cons.mp hx with h | h
      · rw [h]; exact h2
      · exact h3 x h
    · rintro ⟨h1, h3⟩
      exact ⟨⟨h1, h3 bv (by simp)⟩, fun x hx => h3 x (List.mem_cons_of_mem _ hx)⟩

theorem spine_exists (op : Operation) (h : rightLeaf op) :
    ∃ v items, op = buildChain (.Value v) items := by
  induction op with
  | Value v => exact ⟨v, [], rfl⟩
  | Mul l r ihl ihr =>
    obtain ⟨hl, vr, rfl⟩ := h
    obtain ⟨v, items, rfl⟩ := ihl hl
    refine ⟨v, items ++ [(true, vr)], ?_⟩
    simp [buildChain, List.foldl_append]
  | Div l r ihl ihr =>
    obtain ⟨hl, vr, rfl⟩ := h
    obtain ⟨v, items, rfl⟩ := ihl hl
    refine ⟨v, items ++ [(false, vr)], ?_⟩
    simp [buildChain, List.foldl_append]

theorem chainText_boundary (items : List (Bool × Value)) (u : List Char)
    (hb : BoundaryHead u) : BoundaryHead (chainText items ++ u) := by
  cases items with
  | nil => simpa [chainText] using hb
  | cons bv it2 =>
    intro c hc
    have : chainText (bv :: it2) ++ u = ' ' ::
        ((if bv.1 then '*' else '/') :: ' ' :: (pretty_print_value bv.2).data ++
          (chainText it2 ++ u)) := by
      simp [chainText, List.flatten]
    rw [this] at hc
    simp at hc
    subst hc
    exact ⟨by decide, by decide⟩

theorem chainText_length (items : List (Bool × Value)) :
    items.length ≤ (chainText items).length := by
  induction items with
  | nil => simp [chainText]
  | cons bv it2 ih =>
    have : chainText (bv :: it2) = (' ' :: (if bv.1 then '*' else '/') :: ' ' ::
        (pretty_print_value bv.2).data) ++ chainText it2 := by
      simp [chainText, List.flatten]
    rw [this]
    simp only [List.length_append, List.length_cons, List.length_cons]
    omega

theorem parseOpsLoop_chain (items : List (Bool × Value)) :
    ∀ (fuel : ℕ) (acc : Operation) (u : List Char),
      items.length < fuel → BoundaryHead u → opBreak u →
      (∀ bv ∈ items, valueNormalized bv.2) →
      parseOpsLoop fuel acc (chainText items ++ u) = (buildChain acc items, u) := by
  induction items with
  | nil =>
    intro fuel acc u hf hb hob hn
    have hchain : chainText [] ++ u = u := by simp [chainText]
    rw [hchain]
    have hbc : buildChain acc [] = acc := rfl
    rw [hbc]
    cases fuel with
    | zero => omega
    | succ f =>
      cases hdw : dropInlineWs u with
      | nil => exact parseOpsLoop_stop _ _ _ hdw
      | cons c r =>
        have hc := hob c (by rw [hdw]; simp)
        simp only [parseOpsLoop, hdw, if_neg hc.1, if_neg hc.2]
  | cons bv items ih =>
    intro fuel acc u hf hb hob hn
    cases fuel with
    | zero => omega
    | succ f =>
      have hbRest : BoundaryHead (chainText items ++ u) :=
        chainText_boundary items u hb
      have hval : parseValue (pretty_print_value bv.2).data =
          some (bv.2, []) := by
        have := parseValue_render_normalized bv.2 []
          (by intro c hc; simp at hc) (hn bv (by simp))
        simpa using this
      have hAtom : parseAtom
          (' ' :: ((pretty_print_value bv.2).data ++ (chainText items ++ u))) =
          some (.Value bv.2, chainText items ++ u) := by
        have := parseAtom_pre [' '] (pretty_print_value bv.2).data
          (chainText items ++ u) bv.2
          (by intro c hc; simp at hc; subst hc; decide) hval hbRest
        simpa using this
      have hseg : chainText (bv :: items) ++ u =
          ' ' :: (if bv.1 then '*' else '/') :: ' ' ::
            ((pretty_print_value bv.2).data ++ (chainText items ++ u)) := by
        simp [chainText, List.flatten]
      have hrest := ih f (if bv.1 then .Mul acc (.Value bv.2)
          else .Div acc (.Value bv.2)) u (by simpa using Nat.lt_of_succ_lt_succ hf)
        hb hob (fun x hx => hn x (by simp [hx]))
      have hstep : buildChain acc (bv :: items) =
          buildChain (if bv.1 then .Mul acc (.Value bv.2)
            else .Div acc (.Value bv.2)) items := by
        simp [buildChain, List.foldl_cons]
      rw [hseg, hstep]
      by_cases hb1 : bv.1 = true
      · rw [hb1] at hrest ⊢
        simp only [if_true]
        rw [parseOpsLoop_mul f acc (.Value bv.2)
          (' ' :: '*' :: ' ' ::
            ((pretty_print_value bv.2).data ++ (chainText items ++ u)))
          (' ' :: ((pretty_print_value bv.2).data ++ (chainText items ++ u)))
          (chainText items ++ u) rfl hAtom]
        exact hrest
      · simp only [Bool.not_eq_true] at hb1
        rw [hb1] at hrest ⊢
        simp only [Bool.false_eq_true, if_false]
        rw [parseOpsLoop_div f acc (.Value bv.2)
          (' ' :: '/' :: ' ' ::
            ((pretty_print_value bv.2).data ++ (chainText items ++ u)))
          (' ' :: ((pretty_print_value bv.2).data ++ (chainText items ++ u)))
          (chainText items ++ u) rfl hAtom]
        exact hrest

/-- Parsing the printed form of a left-leaning, normalized tree, with any
inline-whitespace padding in front and a non-operator suffix behind,
recovers the tree exactly. -/
theorem parse_operation_print (op : Operation) (u : List Char) (pad : ℕ)
    (hlean : rightLeaf op) (hnorm : opNormalized op)
    (hbU : BoundaryHead u) (hob : opBreak u) :
    parse_operation (List.replicate pad ' ' ++
      ((pretty_print_operation op).data ++ u)) = some (op, u) := by
  obtain ⟨v, items, rfl⟩ := spine_exists op hlean
  have hnv := (opNormalized_buildChain items (.Value v)).mp hnorm
  have hPrint : (pretty_print_operation (buildChain (.Value v) items)).data =
      (pretty_print_value v).data ++ chainText items := by
    rw [print_buildChain items (.Value v)]
    rfl
  rw [hPrint]
  have hval : parseValue (pretty_print_value v).data = some (v, []) := by
    have := parseValue_render_normalized v [] (by intro c hc; simp at hc) hnv.1
    simpa using this
  have hAtom1 : parseAtom (List.replicate pad ' ' ++
      ((pretty_print_value v).data ++ (chainText items ++ u))) =
      some (.Value v, chainText items ++ u) := by
    have := parseAtom_pre (List.replicate pad ' ') (pretty_print_value v).data
      (chainText items ++ u) v
      (by intro c hc; rw [List.mem_replicate] at hc; rw [hc.2]; decide) hval
      (chainText_boundary items u hbU)
    simpa [List.append_assoc] using this
  have hassoc : List.replicate pad ' ' ++
      ((pretty_print_value v).data ++ chainText items ++ u) =
      List.replicate pad ' ' ++
        ((pretty_print_value v).data ++ (chainText items ++ u)) := by
    simp [List.append_assoc]
  rw [hassoc, parse_operation]
  simp only [hAtom1]
  rw [parseOpsLoop_chain items ((chainText items ++ u).length + 1) (.Value v) u
    (by have := chainText_length items; simp only [List.length_append]; omega)
    hbU hob hnv.2]

/-! ### Roundtrip for whole printed lines -/

theorem dropWhile_append_nil (p : Char → Bool) (u x : List Char)
    (h : u.dropWhile p = []) : (u ++ x).dropWhile p = x.dropWhile p := by
  induction u with
  | nil => simp
  | cons c r ih =>
    by_cases hc : p c = true
    · rw [List.dropWhile_cons, if_pos hc] at h
      rw [List.cons_append, List.dropWhile_cons, if_pos hc]
      exact ih h
    · rw [List.dropWhile_cons, if_neg hc] at h
      exact absurd h (by simp)

theorem parseInt_none_of_head (u : List Char)
    (hu : ∀ c ∈ u.head?, c.isDigit = false) : parseInt u = none := by
  cases u with
  | nil => rfl
  | cons c r =>
    have hcd := hu c (by simp)
    have hc0 : ¬c = '0' := by
      intro h
      rw [h] at hcd
      exact absurd hcd (by decide)
    simp [parseInt, hc0, hcd]

theorem parseValue_dash (u : List Char)
    (hu : ∀ c ∈ u.head?, c.isDigit = false) : parseValue ('-' :: u) = none := by
  have h1 : parseNumber ('-' :: u) = none := by
    simp only [parseNumber, if_pos rfl, if_true, parseUnsigned,
      parseInt_none_of_head u hu]
  simp [parseValue, h1]

theorem digitChar_ne_newline (d : ℕ) (hd : d ≤ 9) : ¬Nat.digitChar d = '\n' := by
  interval_cases d <;> decide

theorem normChars_no_newline (k : ℤ) : ∀ ch ∈ normChars k, ¬ch = '\n' := by
  have hfr : k.natAbs % 100 < 100 := Nat.mod_lt _ (by norm_num)
  have hd1 : k.natAbs % 100 / 10 ≤ 9 := by omega
  have hd2 : k.natAbs % 100 % 10 ≤ 9 := by omega
  have hnat : ∀ n : ℕ, '\n' ∉ natChars n := by
    intro n hc
    have := natChars_digits n _ hc
    exact absurd this (by decide)
  have hD1 : ¬Nat.digitChar (k.natAbs % 100 / 10) = '\n' :=
    digitChar_ne_newline _ hd1
  have hD2 : ¬Nat.digitChar (k.natAbs % 100 % 10) = '\n' :=
    digitChar_ne_newline _ hd2
  intro ch hch heq
  subst heq
  revert hch
  simp only [normChars]
  by_cases hneg : k < 0 <;> by_cases h0 : k.natAbs % 100 = 0 <;>
    by_cases h10 : k.natAbs % 100 % 10 = 0 <;>
      simp [hneg, h0, h10, hnat, hD1, hD2, Ne.symm hD1, Ne.symm hD2]

theorem render_no_newline (v : Value) :
    ∀ ch ∈ (pretty_print_value v).data, ¬ch = '\n' := by
  cases v with
  | Number q => exact fun ch hch => normChars_no_newline (hundredths q) ch hch
  | Interval a b =>
    intro ch hch
    have hdata : (pretty_print_value (.Interval a b)).data =
        '[' :: (normChars (hundredths a) ++
          (',' :: ' ' :: (normChars (hundredths b) ++ [']']))) := by
      show ("[" ++ renderNum a ++ ", " ++ renderNum b ++ "]").data = _
      simp only [data_append]
      have hr : ∀ q : ℚ, (renderNum q).data = normChars (hundredths q) :=
        fun q => rfl
      simp [hr]
    rw [hdata] at hch
    simp only [List.mem_cons, List.mem_append, List.mem_singleton,
      List.not_mem_nil, or_false] at hch
    rcases hch with h | (h | (h | (h | (h | h)))) <;>
      first
        | (subst h; decide)
        | exact normChars_no_newline _ ch h

theorem render_no_newline_tree (op : Operation) :
    ∀ ch ∈ (pretty_print_operation op).data, ¬ch = '\n' := by
  induction op with
  | Mul l r ihl ihr =>
    intro ch hch
    simp only [pretty_print_operation, data_append, List.mem_append] at hch
    rcases hch with (h | h) | h
    · exact ihl ch h
    · intro he; subst he; revert h; decide
    · exact ihr ch h
  | Div l r ihl ihr =>
    intro ch hch
    simp only [pretty_print_operation, data_append, List.mem_append] at hch
    rcases hch with (h | h) | h
    · exact ihl ch h
    · intro he; subst he; revert h; decide
    · exact ihr ch h
  | Value v => exact render_no_newline v

/-- The conditions on a comment under which the printed line re-parses as
a line of the same kind: it holds no line break, and its first character
past any inline whitespace is not an operator character (otherwise the
re-parse might try to extend the expression with material that follows). -/
def commentOk (c : String) : Prop :=
  (∀ ch ∈ c.data, ¬ch = '\n') ∧
  (∀ ch ∈ (dropInlineWs c.data).head?, ¬ch = '*' ∧ ¬ch = '/')

/-- Per-line conditions for the print–parse roundtrip: operation trees are
left-leaning with 2-decimal-normalized literals, and comments are
well-behaved. -/
def lineOk : Line → Prop
  | .Operation op c => rightLeaf op ∧ opNormalized op ∧ commentOk c
  | .Subtotal _ c => commentOk c

/-- The characters printed for one line at column width `w` (the loop body
of `pretty_print`). -/
def lineSeg (w : ℕ) : Line → List Char
  | .Operation op comment =>
      (rightJustify w (pretty_print_operation op)).data ++
        ' ' :: (comment.data ++ ['\n'])
  | .Subtotal v comment =>
      List.replicate w '-' ++ '\n' ::
        ((rightJustify w ((v.map pretty_print_value).getD "")).data ++
          ' ' :: (comment.data ++ '\n' :: ['\n']))

theorem join_data (ls : List String) :
    (String.join ls).data = (ls.map String.data).flatten := by
  have haux : ∀ (ls : List String) (acc : String),
      (List.foldl (· ++ ·) acc ls).data =
        acc.data ++ (ls.map String.data).flatten := by
    intro ls
    induction ls with
    | nil => intro acc; simp
    | cons s ls ih =>
      intro acc
      simp only [List.foldl_cons, ih (acc ++ s), data_append, List.map_cons,
        List.flatten_cons, List.append_assoc]
  have := haux ls ""
  simpa [String.join] using this

theorem pretty_print_data (lines : List Line) :
    (pretty_print lines).data =
      (lines.map (lineSeg (lhs_col lines))).flatten := by
  simp only [pretty_print, join_data, List.map_map]
  congr 1
  apply List.map_congr_left
  intro l _
  cases l with
  | Operation op comment =>
    simp only [Function.comp_apply, lineSeg, data_append]
    simp
  | Subtotal v comment =>
    simp only [Function.comp_apply, lineSeg, data_append]
    have hdash : ((⟨List.replicate (lhs_col lines) '-'⟩ : String)).data =
        List.replicate (lhs_col lines) '-' := rfl
    simp [hdash]

/-- After a printed `lhs␣comment` remainder, consuming the comment stops
exactly at the line break. -/
theorem comment_strip (c : String) (rest : List Char)
    (hnl : ∀ ch ∈ c.data, ¬ch = '\n') :
    dropComment (dropInlineWs (c.data ++ '\n' :: rest)) = '\n' :: rest := by
  have hstop : List.dropWhile (fun ch => ch ≠ '\n') ('\n' :: rest) =
      '\n' :: rest := by
    rw [List.dropWhile_cons]
    simp
  cases hdc : dropInlineWs c.data with
  | nil =>
    rw [dropInlineWs, dropWhile_append_nil _ _ _ hdc]
    have h1 : List.dropWhile isInlineWs ('\n' :: rest) = '\n' :: rest := by
      rw [List.dropWhile_cons, show isInlineWs '\n' = false from by decide]
      simp
    rw [h1, dropComment]
    exact hstop
  | cons d ds =>
    rw [dropInlineWs_append _ _ (by rw [hdc]; simp), hdc, dropComment]
    have hmem : ∀ ch ∈ d :: ds, (decide (ch ≠ '\n')) = true := by
      intro ch hch
      have hx : ch ∈ dropInlineWs c.data := by rw [hdc]; exact hch
      have : ch ∈ c.data := List.dropWhile_subset isInlineWs hx
      simp [hnl ch this]
    have hsp := append_spans (fun ch => decide (ch ≠ '\n')) (d :: ds)
      ('\n' :: rest) hmem (by intro ch hch; simp at hch; subst hch; simp)
    exact hsp.2

/-- A printed operation line re-parses as an operation line with the same
tree, leaving the line break and everything after it unconsumed. -/
theorem parse_line_opSeg (op : Operation) (c : String) (w : ℕ)
    (rest : List Char) (hlean : rightLeaf op) (hnorm : opNormalized op)
    (hcm : commentOk c) :
    ∃ c2, parse_line (lineSeg w (.Operation op c) ++ rest) =
      some (.Operation op c2, '\n' :: rest) := by
  have hshape : lineSeg w (.Operation op c) ++ rest =
      List.replicate (w - (pretty_print_operation op).length) ' ' ++
        ((pretty_print_operation op).data ++
          (' ' :: (c.data ++ '\n' :: rest))) := by
    simp [lineSeg, rightJustify, List.append_assoc]
  have hbU : BoundaryHead (' ' :: (c.data ++ '\n' :: rest)) := by
    intro ch hch
    simp at hch
    subst hch
    exact ⟨by decide, by decide⟩
  have hob : opBreak (' ' :: (c.data ++ '\n' :: rest)) := by
    intro ch hch
    have h1 : dropInlineWs (' ' :: (c.data ++ '\n' :: rest)) =
        dropInlineWs (c.data ++ '\n' :: rest) := by
      rw [dropInlineWs, List.dropWhile_cons,
        show isInlineWs ' ' = true from by decide]
      simp [dropInlineWs]
    rw [h1] at hch
    cases hdc : dropInlineWs c.data with
    | nil =>
      rw [dropInlineWs, dropWhile_append_nil _ _ _ hdc] at hch
      have h2 : List.dropWhile isInlineWs ('\n' :: rest) = '\n' :: rest := by
        rw [List.dropWhile_cons, show isInlineWs '\n' = false from by decide]
        simp
      rw [h2] at hch
      simp at hch
      subst hch
      exact ⟨by decide, by decide⟩
    | cons d ds =>
      rw [dropInlineWs_append _ _ (by rw [hdc]; simp), hdc] at hch
      simp at hch
      subst hch
      exact hcm.2 d (by rw [hdc]; simp)
  have hop := parse_operation_print op (' ' :: (c.data ++ '\n' :: rest))
    (w - (pretty_print_operation op).length) hlean hnorm hbU hob
  refine ⟨takeComment (dropInlineWs (c.data ++ '\n' :: rest)), ?_⟩
  rw [hshape, parse_line, parse_operation_line]
  simp only [hop]
  rw [if_pos (show isInlineWs ' ' = true from by decide)]
  rw [comment_strip c rest hcm.1]

theorem render_head_nws (val : Value) :
    ∃ ch chs, (pretty_print_value val).data = ch :: chs ∧ isWs ch = false := by
  cases val with
  | Number q =>
    obtain ⟨ch, chs, hcs, hws⟩ := normChars_cons (hundredths q)
    exact ⟨ch, chs, hcs, hws⟩
  | Interval a b =>
    refine ⟨'[', (renderNum a).data ++ (", " : String).data ++
      ((renderNum b).data ++ ("]" : String).data), ?_, by decide⟩
    show ("[" ++ renderNum a ++ ", " ++ renderNum b ++ "]").data = _
    simp only [data_append, List.append_assoc]
    rfl

/-- A printed subtotal block (dash row, value row, blank line) re-parses
as a subtotal line, leaving the value row's break and the blank line
unconsumed. -/
theorem parse_line_subSeg (v : Option Value) (c : String) (w : ℕ)
    (rest : List Char) (hw : 1 ≤ w) (hcm : commentOk c) :
    ∃ v2 c2, parse_line (lineSeg w (.Subtotal v c) ++ rest) =
      some (.Subtotal v2 c2, '\n' :: '\n' :: rest) := by
  set V : List Char := ((v.map pretty_print_value).getD "").data with hV
  set L : ℕ := ((v.map pretty_print_value).getD "").length with hL
  have hrow : lineSeg w (.Subtotal v c) ++ rest =
      List.replicate w '-' ++ '\n' ::
        ((List.replicate (w - L) ' ' ++ V) ++
          ' ' :: (c.data ++ '\n' :: '\n' :: rest)) := by
    simp [lineSeg, rightJustify, List.append_assoc, hV, hL]
  set ROW : List Char := (List.replicate (w - L) ' ' ++ V) ++
    ' ' :: (c.data ++ '\n' :: '\n' :: rest) with hROW
  obtain ⟨w', hw'⟩ : ∃ w', w = w' + 1 := ⟨w - 1, by omega⟩
  have hinput : lineSeg w (.Subtotal v c) ++ rest =
      '-' :: (List.replicate w' '-' ++ '\n' :: ROW) := by
    rw [hrow, hw']
    simp [List.replicate_succ]
  -- the operation-line alternative fails on the dash row
  have hOpFail : parse_operation_line (lineSeg w (.Subtotal v c) ++ rest) =
      none := by
    have hpv : parseValue ('-' :: (List.replicate w' '-' ++ '\n' :: ROW)) =
        none := by
      apply parseValue_dash
      intro ch hch
      cases w' with
      | zero => simp at hch; subst hch; decide
      | succ w'' =>
        rw [List.replicate_succ] at hch
        simp at hch
        subst hch
        decide
    have hdrop : dropInlineWs ('-' :: (List.replicate w' '-' ++ '\n' :: ROW)) =
        '-' :: (List.replicate w' '-' ++ '\n' :: ROW) := by
      rw [dropInlineWs, List.dropWhile_cons,
        show isInlineWs '-' = false from by decide]
      simp
    rw [hinput, parse_operation_line, parse_operation, parseAtom, hdrop, hpv]
  -- the subtotal alternative: dashes, newline, then the result row
  have hdash : ((lineSeg w (.Subtotal v c) ++ rest).dropWhile
      (fun ch => ch = '-')) = '\n' :: ROW := by
    rw [hrow]
    have hsp := append_spans (fun ch => decide (ch = '-')) (List.replicate w '-')
      ('\n' :: ROW)
      (by intro ch hch; rw [List.mem_replicate] at hch; simp [hch.2])
      (by intro ch hch; simp at hch; subst hch; simp)
    exact hsp.2
  have hnl : dropInlineWs ('\n' :: ROW) = '\n' :: ROW := by
    rw [dropInlineWs, List.dropWhile_cons,
      show isInlineWs '\n' = false from by decide]
    simp
  have hnewline : parseNewline ('\n' :: ROW) = some ROW := by
    simp [parseNewline]
  -- now the result row
  rcases v with _ | val
  · -- no stored value: the row is all padding then the comment
    have hrowv : ROW = List.replicate w ' ' ++ ' ' :: (c.data ++ '\n' :: '\n' :: rest) := by
      rw [hROW]
      simp [hV, hL]
    have hpvrow : parseValue ROW = none := by
      rw [hrowv, hw', List.replicate_succ, List.cons_append]
      exact parseValue_ws_none ' ' _ (by decide)
    have hu : dropInlineWs ROW = dropInlineWs (c.data ++ '\n' :: '\n' :: rest) := by
      rw [hrowv, dropInlineWs, dropWhile_append_nil _ _ _ (by
        rw [List.dropWhile_eq_nil_iff]
        intro ch hch
        rw [List.mem_replicate] at hch
        rw [hch.2]
        decide)]
      rw [List.dropWhile_cons, show isInlineWs ' ' = true from by decide]
      simp [dropInlineWs]
    refine ⟨none, takeComment (dropInlineWs (c.data ++ '\n' :: '\n' :: rest)), ?_⟩
    rw [parse_line, hOpFail, parse_subtotal, hdash, hnl, hnewline]
    simp only [hpvrow, hu, comment_strip c ('\n' :: rest) hcm.1]
  · -- a stored value
    have hVval : V = (pretty_print_value val).data := by simp [hV]
    by_cases hpad : w - L = 0
    · -- the value is the widest column: no padding, the value re-parses
      have hrowv : ROW = (pretty_print_value val).data ++
          ' ' :: (c.data ++ '\n' :: '\n' :: rest) := by
        rw [hROW, hpad, hVval]
        simp
      have hpvrow : parseValue ROW = some (dec2 val,
          ' ' :: (c.data ++ '\n' :: '\n' :: rest)) := by
        rw [hrowv]
        exact parseValue_render val _
          (by intro ch hch; simp at hch; subst hch; exact ⟨by decide, by decide⟩)
      refine ⟨some (dec2 val),
        takeComment (dropInlineWs (c.data ++ '\n' :: '\n' :: rest)), ?_⟩
      rw [parse_line, hOpFail, parse_subtotal, hdash, hnl, hnewline]
      simp only [hpvrow, show isInlineWs ' ' = true from by decide, if_true,
        comment_strip c ('\n' :: rest) hcm.1]
    · -- padded: the row re-parses as a comment-only result line
      obtain ⟨p', hp'⟩ : ∃ p', w - L = p' + 1 := ⟨w - L - 1, by omega⟩
      have hpvrow : parseValue ROW = none := by
        rw [hROW, hp', List.replicate_succ, List.cons_append, List.cons_append]
        exact parseValue_ws_none ' ' _ (by decide)
      obtain ⟨ch0, chs0, hch0, hch0w⟩ := render_head_nws val
      have hu : dropInlineWs ROW =
          (pretty_print_value val).data ++
            ' ' :: (c.data ++ '\n' :: '\n' :: rest) := by
        rw [hROW, hVval, dropInlineWs, List.append_assoc,
          dropWhile_append_nil _ _ _ (by
            rw [List.dropWhile_eq_nil_iff]
            intro ch hch
            rw [List.mem_replicate] at hch
            rw [hch.2]
            decide)]
        rw [hch0, List.cons_append, List.dropWhile_cons,
          if_neg (by rw [ws_imp_inline_false ch0 hch0w]; simp)]
      have hdropc : dropComment ((pretty_print_value val).data ++
          ' ' :: (c.data ++ '\n' :: '\n' :: rest)) = '\n' :: '\n' :: rest := by
        have hassoc : (pretty_print_value val).data ++
            ' ' :: (c.data ++ '\n' :: '\n' :: rest) =
            ((pretty_print_value val).data ++ ' ' :: c.data) ++
              '\n' :: '\n' :: rest := by
          simp [List.append_assoc]
        rw [hassoc, dropComment]
        have hsp := append_spans (fun ch => decide (ch ≠ '\n'))
          ((pretty_print_value val).data ++ ' ' :: c.data) ('\n' :: '\n' :: rest)
          (by
            intro ch hch
            rcases List.mem_append.mp hch with h | h
            · simp [render_no_newline val ch h]
            · rcases List.mem_cons.mp h with h2 | h2
              · subst h2; simp
              · simp [hcm.1 ch h2])
          (by intro ch hch; simp at hch; subst hch; simp)
        exact hsp.2
      refine ⟨none, takeComment ((pretty_print_value val).data ++
        ' ' :: (c.data ++ '\n' :: '\n' :: rest)), ?_⟩
      rw [parse_line, hOpFail, parse_subtotal, hdash, hnl, hnewline]
      simp only [hpvrow, hu, hdropc]

/-! ### Skeleton preservation of evaluation and re-parsing -/

/-- Two lines in the same rôle: operation lines with identical trees, or
two subtotal lines (values and comments free). -/
def sameOp (l1 l2 : Line) : Prop :=
  match l1, l2 with
  | .Operation op1 _, .Operation op2 _ => op1 = op2
  | .Subtotal _ _, .Subtotal _ _ => True
  | _, _ => False

/-- Two lines that agree on everything except possibly a subtotal's
stored value. -/
def sameShape (l1 l2 : Line) : Prop :=
  match l1, l2 with
  | .Operation op1 c1, .Operation op2 c2 => op1 = op2 ∧ c1 = c2
  | .Subtotal _ c1, .Subtotal _ c2 => c1 = c2
  | _, _ => False

/-- The sequence of stored subtotal values of a document, in order. -/
def subtotalValues (ls : List Line) : List (Option Value) :=
  ls.filterMap (fun l =>
    match l with
    | .Subtotal v _ => some v
    | .Operation _ _ => none)

theorem subtotalValues_cons_op (op : Operation) (c : String) (t : List Line) :
    subtotalValues (.Operation op c :: t) = subtotalValues t := rfl

theorem subtotalValues_cons_sub (v : Option Value) (c : String)
    (t : List Line) :
    subtotalValues (.Subtotal v c :: t) = v :: subtotalValues t := rfl

theorem sameOp_of_sameShape : ∀ {l1 l2 : Line}, sameShape l1 l2 → sameOp l1 l2
  | .Operation _ _, .Operation _ _, h => h.1
  | .Subtotal _ _, .Subtotal _ _, _ => trivial
  | .Operation _ _, .Subtotal _ _, h => h.elim
  | .Subtotal _ _, .Operation _ _, h => h.elim

theorem sameOp_trans {l1 l2 l3 : Line} (h1 : sameOp l1 l2)
    (h2 : sameOp l2 l3) : sameOp l1 l3 := by
  cases l1 <;> cases l2 <;> cases l3 <;> simp_all [sameOp]

theorem forall₂_sameOp_trans {a b c : List Line}
    (h1 : List.Forall₂ sameOp a b) (h2 : List.Forall₂ sameOp b c) :
    List.Forall₂ sameOp a c := by
  induction h1 generalizing c with
  | nil => cases h2; exact List.Forall₂.nil
  | cons hab h1' ih =>
    cases h2 with
    | cons hbc h2' => exact List.Forall₂.cons (sameOp_trans hab hbc) (ih h2')

theorem lineOk_of_sameShape {l1 l2 : Line} (h : sameShape l1 l2)
    (hok : lineOk l1) : lineOk l2 := by
  cases l1 with
  | Operation op1 c1 =>
    cases l2 with
    | Operation op2 c2 =>
      have h' : op1 = op2 ∧ c1 = c2 := h
      obtain ⟨rfl, rfl⟩ := h'
      exact hok
    | Subtotal v2 c2 => exact h.elim
  | Subtotal v1 c1 =>
    cases l2 with
    | Operation op2 c2 => exact h.elim
    | Subtotal v2 c2 =>
      have h' : c1 = c2 := h
      subst h'
      exact hok

theorem lineOk_of_forall₂ {as bs : List Line}
    (h : List.Forall₂ sameShape as bs) (hok : ∀ l ∈ as, lineOk l) :
    ∀ l ∈ bs, lineOk l := by
  induction h with
  | nil => simp
  | cons hrel htail ih =>
    intro l hl
    rcases List.mem_cons.mp hl with rfl | hl'
    · exact lineOk_of_sameShape hrel (hok _ (List.mem_cons_self _ _))
    · exact ih (fun x hx => hok x (List.mem_cons_of_mem _ hx)) l hl'

/-- The evaluation loop only changes subtotal values: every line keeps
its kind, tree and comment. -/
theorem evaluateLoop_shape (rest : List Line) :
    ∀ (v : Value) (out : List Line), evaluateLoop v rest = some out →
      List.Forall₂ sameShape rest out := by
  induction rest with
  | nil =>
    intro v out h
    simp only [evaluateLoop, Option.some.injEq] at h
    subst h
    exact List.Forall₂.nil
  | cons l t ih =>
    intro v out h
    cases l with
    | Operation op c =>
      simp only [evaluateLoop, Option.pure_def, Option.bind_eq_bind,
        Option.bind_eq_some, Option.some.injEq] at h
      obtain ⟨x, hx, out', hout', rfl⟩ := h
      exact List.Forall₂.cons ⟨rfl, rfl⟩ (ih _ _ hout')
    | Subtotal v0 c =>
      simp only [evaluateLoop, Option.pure_def, Option.bind_eq_bind,
        Option.bind_eq_some, Option.some.injEq] at h
      obtain ⟨out', hout', rfl⟩ := h
      exact List.Forall₂.cons rfl (ih _ _ hout')

/-- The evaluation loop reads only the operation skeleton: running it on
any document with the same skeleton succeeds from the same accumulator
and snapshots the same subtotal values. -/
theorem evaluateLoop_congr (rest : List Line) :
    ∀ rest2 : List Line, List.Forall₂ sameOp rest rest2 →
    ∀ (v : Value) (out : List Line), evaluateLoop v rest = some out →
      ∃ out2, evaluateLoop v rest2 = some out2 ∧
        subtotalValues out2 = subtotalValues out := by
  induction rest with
  | nil =>
    intro rest2 h v out hev
    cases h
    simp only [evaluateLoop, Option.some.injEq] at hev
    subst hev
    exact ⟨[], rfl, rfl⟩
  | cons l t ih =>
    intro rest2 h v out hev
    cases h with
    | cons hrel htail =>
      rename_i l2 t2
      cases l with
      | Operation op c =>
        cases l2 with
        | Operation op2 c2 =>
          have hop : op = op2 := hrel
          subst hop
          simp only [evaluateLoop, Option.pure_def, Option.bind_eq_bind,
            Option.bind_eq_some, Option.some.injEq] at hev
          obtain ⟨x, hx, out', hout', rfl⟩ := hev
          obtain ⟨out2', hout2', hvals⟩ := ih t2 htail _ _ hout'
          refine ⟨.Operation op c2 :: out2', ?_, ?_⟩
          · simp [evaluateLoop, hx, hout2']
          · rw [subtotalValues_cons_op, subtotalValues_cons_op, hvals]
        | Subtotal v2 c2 => exact hrel.elim
      | Subtotal v0 c =>
        cases l2 with
        | Operation op2 c2 => exact hrel.elim
        | Subtotal v2 c2 =>
          simp only [evaluateLoop, Option.pure_def, Option.bind_eq_bind,
            Option.bind_eq_some, Option.some.injEq] at hev
          obtain ⟨out', hout', rfl⟩ := hev
          obtain ⟨out2', hout2', hvals⟩ := ih t2 htail _ _ hout'
          refine ⟨.Subtotal (some v) c2 :: out2', ?_, ?_⟩
          · simp [evaluateLoop, hout2']
          · rw [subtotalValues_cons_sub, subtotalValues_cons_sub, hvals]

theorem parse_line_nil : parse_line [] = none := rfl

theorem dropWs_cons_newline (s : List Char) :
    dropWs ('\n' :: s) = dropWs s := by
  rw [dropWs, List.dropWhile_cons, show isWs '\n' = true from by decide]
  simp [dropWs]

theorem dropWs_cons_of_nws (ch : Char) (x : List Char) (h : isWs ch = false) :
    dropWs (ch :: x) = ch :: x := by
  rw [dropWs, List.dropWhile_cons, h]
  simp

/-- The rendered expression of an operation tree starts with a
non-whitespace character. -/
theorem op_head_nws (op : Operation) :
    ∃ ch chs, (pretty_print_operation op).data = ch :: chs ∧
      isWs ch = false := by
  induction op with
  | Mul l r ihl ihr =>
    obtain ⟨ch, chs, hdata, hws⟩ := ihl
    refine ⟨ch, chs ++ ((" * " : String).data ++
      (pretty_print_operation r).data), ?_, hws⟩
    simp only [pretty_print_operation, data_append, hdata, List.cons_append,
      List.append_assoc]
  | Div l r ihl ihr =>
    obtain ⟨ch, chs, hdata, hws⟩ := ihl
    refine ⟨ch, chs ++ ((" / " : String).data ++
      (pretty_print_operation r).data), ?_, hws⟩
    simp only [pretty_print_operation, data_append, hdata, List.cons_append,
      List.append_assoc]
  | Value v =>
    obtain ⟨ch, chs, hdata, hws⟩ := render_head_nws v
    exact ⟨ch, chs, hdata, hws⟩

theorem op_length_pos (op : Operation) :
    1 ≤ (pretty_print_operation op).length := by
  obtain ⟨ch, chs, hdata, _⟩ := op_head_nws op
  have hlen : (pretty_print_operation op).length =
      (pretty_print_operation op).data.length := rfl
  rw [hlen, hdata]
  simp

theorem lhs_col_cons (l : Line) (t : List Line) :
    lhs_col (l :: t) =
      max (((lhs l).map String.length).getD 0) (lhs_col t) := rfl

theorem lhs_col_op_pos (op : Operation) (c : String) (t : List Line) :
    1 ≤ lhs_col (.Operation op c :: t) := by
  have h1 : ((lhs (.Operation op c)).map String.length).getD 0 =
      (pretty_print_operation op).length := rfl
  have h2 := op_length_pos op
  rw [lhs_col_cons, h1]
  omega

theorem length_le_flatten (ls : List (List Char))
    (h : ∀ x ∈ ls, 1 ≤ x.length) : ls.length ≤ ls.flatten.length := by
  induction ls with
  | nil => simp
  | cons x t ih =>
    simp only [List.flatten_cons, List.length_append, List.length_cons]
    have hx := h x (by simp)
    have ht := ih (fun y hy => h y (by simp [hy]))
    omega

theorem lineSeg_length_pos (w : ℕ) (l : Line) : 1 ≤ (lineSeg w l).length := by
  cases l with
  | Operation op c =>
    simp only [lineSeg, List.length_append, List.length_cons]
    omega
  | Subtotal v c =>
    simp only [lineSeg, List.length_append, List.length_cons]
    omega

/-- Whole-document whitespace skipping strips exactly the padding of a
printed operation line, leaving the unpadded form of the same line. -/
theorem dropWs_opSeg (w : ℕ) (op : Operation) (c : String)
    (rest : List Char) :
    dropWs (lineSeg w (.Operation op c) ++ rest) =
      lineSeg 0 (.Operation op c) ++ rest := by
  obtain ⟨ch, chs, hdata, hws⟩ := op_head_nws op
  have hshape : lineSeg w (.Operation op c) ++ rest =
      List.replicate (w - (pretty_print_operation op).length) ' ' ++
        ((pretty_print_operation op).data ++
          (' ' :: (c.data ++ '\n' :: rest))) := by
    simp [lineSeg, rightJustify, List.append_assoc]
  have hsp := append_spans isWs
    (List.replicate (w - (pretty_print_operation op).length) ' ')
    ((pretty_print_operation op).data ++ (' ' :: (c.data ++ '\n' :: rest)))
    (by
      intro x hx
      rw [List.mem_replicate] at hx
      rw [hx.2]
      decide)
    (by
      intro x hx
      rw [hdata, List.cons_append] at hx
      simp at hx
      subst hx
      exact hws)
  rw [hshape, dropWs, hsp.2]
  simp [lineSeg, rightJustify, List.append_assoc]

/-- A printed subtotal block, possibly followed by more text, starts with
a dash (the column is at least one wide). -/
theorem subSeg_cons (w' : ℕ) (v : Option Value) (c : String)
    (rest : List Char) :
    lineSeg (w' + 1) (.Subtotal v c) ++ rest =
      '-' :: (List.replicate w' '-' ++ '\n' ::
        ((rightJustify (w' + 1) ((v.map pretty_print_value).getD "")).data ++
          ' ' :: (c.data ++ '\n' :: '\n' :: rest))) := by
  simp [lineSeg, List.replicate_succ, List.append_assoc]

/-- Greedy line parsing consumes a whole printed suffix of well-behaved
lines, producing a document with the same operation skeleton. -/
theorem parseLinesAux_print (w : ℕ) (hw : 1 ≤ w) :
    ∀ ls : List Line, (∀ l ∈ ls, lineOk l) →
    ∀ fuel : ℕ, ls.length ≤ fuel →
      ∃ ls2, parseLinesAux fuel (dropWs ((ls.map (lineSeg w)).flatten)) =
          (ls2, []) ∧ List.Forall₂ sameOp ls ls2 := by
  intro ls
  induction ls with
  | nil =>
    intro _ fuel _
    refine ⟨[], ?_, List.Forall₂.nil⟩
    cases fuel with
    | zero => rfl
    | succ f =>
      show parseLinesAux (f + 1) [] = ([], [])
      rw [parseLinesAux, parse_line_nil]
  | cons l t ih =>
    intro hok fuel hfuel
    obtain ⟨f, rfl⟩ : ∃ f, fuel = f + 1 :=
      ⟨fuel - 1, by simp at hfuel; omega⟩
    have hokt : ∀ x ∈ t, lineOk x :=
      fun x hx => hok x (List.mem_cons_of_mem _ hx)
    obtain ⟨ls2, haux, hrel⟩ := ih hokt f (by simp at hfuel; omega)
    cases l with
    | Operation op c =>
      obtain ⟨hlean, hnorm, hcm⟩ := hok _ (List.mem_cons_self _ _)
      have hin : dropWs (((Line.Operation op c :: t).map
          (lineSeg w)).flatten) =
          lineSeg 0 (.Operation op c) ++ (t.map (lineSeg w)).flatten := by
        rw [List.map_cons, List.flatten_cons]
        exact dropWs_opSeg w op c _
      obtain ⟨c2, hpl⟩ := parse_line_opSeg op c 0
        ((t.map (lineSeg w)).flatten) hlean hnorm hcm
      refine ⟨.Operation op c2 :: ls2, ?_, List.Forall₂.cons rfl hrel⟩
      rw [hin]
      simp only [parseLinesAux, hpl, dropWs_cons_newline, haux]
    | Subtotal v c =>
      have hcm : commentOk c := hok _ (List.mem_cons_self _ _)
      obtain ⟨w', hw'⟩ : ∃ w', w = w' + 1 := ⟨w - 1, by omega⟩
      have hin : dropWs (((Line.Subtotal v c :: t).map
          (lineSeg w)).flatten) =
          lineSeg w (.Subtotal v c) ++ (t.map (lineSeg w)).flatten := by
        rw [List.map_cons, List.flatten_cons]
        obtain ⟨x, hx⟩ : ∃ x, lineSeg w (.Subtotal v c) ++
            (t.map (lineSeg w)).flatten = '-' :: x := by
          rw [hw', subSeg_cons]
          exact ⟨_, rfl⟩
        rw [hx]
        exact dropWs_cons_of_nws '-' x (by decide)
      obtain ⟨v2, c2, hpl⟩ := parse_line_subSeg v c w
        ((t.map (lineSeg w)).flatten) hw hcm
      refine ⟨.Subtotal v2 c2 :: ls2, ?_, List.Forall₂.cons trivial hrel⟩
      rw [hin]
      simp only [parseLinesAux, hpl, dropWs_cons_newline, haux]

/-- Claim C8 (amended): for a document whose first line is an operation
line, whose operation trees are left-leaning with 2-decimal-normalized
literals, and whose comments hold no line break and do not start with an
operator character after inline whitespace, printing the evaluated
document re-parses successfully, and re-evaluating the re-parsed document
reproduces the subtotal values of the first evaluation. (As literally
stated the claim fails — see the counterexample: right-justification pads
a stored subtotal value's row with leading spaces, the re-parse reads
that row as a comment-only result line, and when the document does not
open with an operation line the lost value is never recomputed.) -/
theorem c8_roundtrip_amended (op0 : Operation) (c0 : String)
    (rest out : List Line)
    (hok : ∀ l ∈ (Line.Operation op0 c0 :: rest), lineOk l)
    (heval : evaluate (.Operation op0 c0 :: rest) = some out) :
    ∃ doc2 out2, parseDoc (pretty_print out).data = some doc2 ∧
      evaluate doc2 = some out2 ∧
      subtotalValues out2 = subtotalValues out := by
  simp only [evaluate, Option.pure_def, Option.bind_eq_bind,
    Option.bind_eq_some, Option.some.injEq] at heval
  obtain ⟨v0, hv0, out1, hloop, rfl⟩ := heval
  have hshape := evaluateLoop_shape rest v0 out1 hloop
  have hok1 : ∀ l ∈ out1, lineOk l :=
    lineOk_of_forall₂ hshape (fun l hl => hok l (List.mem_cons_of_mem _ hl))
  obtain ⟨hlean, hnorm, hcm⟩ := hok _ (List.mem_cons_self _ _)
  have hw : 1 ≤ lhs_col (Line.Operation op0 c0 :: out1) :=
    lhs_col_op_pos op0 c0 out1
  have hs : (pretty_print (Line.Operation op0 c0 :: out1)).data =
      lineSeg (lhs_col (Line.Operation op0 c0 :: out1)) (.Operation op0 c0) ++
        (out1.map
          (lineSeg (lhs_col (Line.Operation op0 c0 :: out1)))).flatten := by
    rw [pretty_print_data, List.map_cons, List.flatten_cons]
  obtain ⟨c2, hpl⟩ := parse_line_opSeg op0 c0
    (lhs_col (Line.Operation op0 c0 :: out1))
    ((out1.map (lineSeg (lhs_col (Line.Operation op0 c0 :: out1)))).flatten)
    hlean hnorm hcm
  have hlenF : out1.length + 1 ≤
      (pretty_print (Line.Operation op0 c0 :: out1)).data.length := by
    have h1 := length_le_flatten
      ((Line.Operation op0 c0 :: out1).map
        (lineSeg (lhs_col (Line.Operation op0 c0 :: out1))))
      (by
        intro x hx
        rw [List.mem_map] at hx
        obtain ⟨l, _, rfl⟩ := hx
        exact lineSeg_length_pos _ l)
    rw [List.length_map, List.length_cons] at h1
    calc out1.length + 1
        ≤ (((Line.Operation op0 c0 :: out1).map
            (lineSeg (lhs_col
              (Line.Operation op0 c0 :: out1)))).flatten).length := h1
      _ = (pretty_print (Line.Operation op0 c0 :: out1)).data.length := by
          rw [pretty_print_data]
  obtain ⟨ls2, haux, hrel⟩ := parseLinesAux_print
    (lhs_col (Line.Operation op0 c0 :: out1)) hw out1 hok1
    ((pretty_print (Line.Operation op0 c0 :: out1)).data.length)
    (by omega)
  have hstep : parseLinesAux
      ((pretty_print (Line.Operation op0 c0 :: out1)).data.length + 1)
      ((pretty_print (Line.Operation op0 c0 :: out1)).data) =
      (Line.Operation op0 c2 :: ls2, []) := by
    rw [hs] at haux
    conv_lhs => rw [hs]
    simp only [parseLinesAux, hpl, dropWs_cons_newline, haux]
  have hdoc2 : parseDoc (pretty_print (Line.Operation op0 c0 :: out1)).data =
      some (Line.Operation op0 c2 :: ls2) := by
    rw [parseDoc]
    simp only [hstep, if_true]
  have hsameOps1 : List.Forall₂ sameOp rest out1 :=
    List.Forall₂.imp (fun a b h => sameOp_of_sameShape h) hshape
  have hsameOps2 := forall₂_sameOp_trans hsameOps1 hrel
  obtain ⟨out2', hout2', hvals⟩ :=
    evaluateLoop_congr rest ls2 hsameOps2 v0 out1 hloop
  refine ⟨Line.Operation op0 c2 :: ls2, Line.Operation op0 c2 :: out2',
    hdoc2, ?_, ?_⟩
  · simp [evaluate, hv0, hout2']
  · rw [subtotalValues_cons_op, subtotalValues_cons_op, hvals]

/-- Witness for the amended C8 roundtrip: the evaluated two-line document
`5 a` / subtotal (stored balance 5) prints, re-parses and re-evaluates to
the same subtotal values. -/
theorem c8_roundtrip_amended_witness :
    ∃ doc2 out2,
      parseDoc (pretty_print [Line.Operation (.Value (.Number 5)) "a",
        Line.Subtotal (some (.Number 5)) "b"]).data = some doc2 ∧
      evaluate doc2 = some out2 ∧
      subtotalValues out2 = subtotalValues
        [Line.Operation (.Value (.Number 5)) "a",
         Line.Subtotal (some (.Number 5)) "b"] :=
  c8_roundtrip_amended (.Value (.Number 5)) "a" [.Subtotal none "b"]
    [Line.Operation (.Value (.Number 5)) "a",
     Line.Subtotal (some (.Number 5)) "b"]
    (by
      intro l hl
      rcases List.mem_cons.mp hl with rfl | hl'
      · refine ⟨trivial, ?_, ⟨by decide, by decide⟩⟩
        show ((hundredths (5:ℚ) : ℤ) : ℚ) = 5 * 100
        rw [show (5:ℚ) = ((5:ℕ):ℚ) by norm_num, hundredths_natCast]
        norm_num
      · rcases List.mem_cons.mp hl' with rfl | hl''
        · exact ⟨by decide, by decide⟩
        · exact absurd hl'' (List.not_mem_nil _))
    rfl

/-- The source text of the C8 counterexample document: a subtotal with a
written literal `5`, then an operation line `100`. -/
def c8Text : String := "---\n5 x\n100 y\n"

/-- The C8 counterexample document as parsed from `c8Text`. -/
def c8Doc : List Line :=
  [.Subtotal (some (.Number 5)) "x", .Operation (.Value (.Number 100)) "y"]

/-- What re-parsing the printed `c8Doc` yields: the padded value row
`  5 x` re-parses as a comment-only result line, so the stored `5` is
gone. -/
def c8Doc2 : List Line :=
  [.Subtotal none "5 x", .Operation (.Value (.Number 100)) "y"]

/-- Counterexample to claim C8 as stated: the document `c8Text` parses,
evaluates without unsupported arithmetic (a no-op, as its first line is a
subtotal), yet printing and re-parsing loses the stored subtotal value —
right-justification pads the value row, the re-parser treats the padded
row as a comment-only line, and re-evaluation (also a no-op) leaves the
subtotal values changed from `[some 5]` to `[none]`. -/
theorem c8_not_idempotent :
    parseDoc c8Text.data = some c8Doc ∧
    evaluate c8Doc = some c8Doc ∧
    parseDoc (pretty_print c8Doc).data = some c8Doc2 ∧
    evaluate c8Doc2 = some c8Doc2 ∧
    subtotalValues c8Doc2 ≠ subtotalValues c8Doc := by
  refine ⟨by decide, rfl, ?_, rfl, by decide⟩
  have h5 : (pretty_print_value (Value.Number 5)).data = ['5'] := by
    show (renderNum (5:ℚ)).data = ['5']
    rw [show (5:ℚ) = ((5:ℕ):ℚ) by norm_num, renderNum_nat]
    decide
  have h100 : (pretty_print_operation
      (Operation.Value (Value.Number 100))).data = ['1', '0', '0'] := by
    show (renderNum (100:ℚ)).data = ['1', '0', '0']
    rw [show (100:ℚ) = ((100:ℕ):ℚ) by norm_num, renderNum_nat]
    decide
  have h5s : pretty_print_value (Value.Number 5) = "5" := String.ext h5
  have h100s : pretty_print_operation (Operation.Value (Value.Number 100)) =
      "100" := String.ext h100
  have h5len : (pretty_print_value (Value.Number 5)).length = 1 := by
    show (pretty_print_value (Value.Number 5)).data.length = 1
    rw [h5]
    rfl
  have hcol : lhs_col c8Doc = 3 := by
    rw [c8Doc, lhs_col_cons, lhs_col_cons]
    simp [lhs, h5s, h100s, lhs_col]
    decide
  have hprint : pretty_print c8Doc = "---\n  5 x\n\n100 y\n" := by
    apply String.ext
    rw [pretty_print_data, hcol, c8Doc]
    simp only [List.map_cons, List.map_nil, List.flatten_cons,
      List.flatten_nil, lineSeg, rightJustify, h5s, h100s]
    simp [h5, h100, h5len]
    decide
  rw [hprint]
  decide

end Calc
